import Mathlib

/-!
Verification of the poker-simulations repository core against its
natural-language specification.

The Python sources are shallowly embedded: mutable objects become
structures with explicit state passing, Python `int` becomes `Int`,
Python `float` literals and arithmetic on probabilities/strengths
become `ℚ`, raised exceptions become `Except` errors, and the two
external capabilities (the treys hand-strength oracle and the ambient
randomness source) become explicit parameters that theorems quantify
over.
-/

namespace PokerSim

/-! ## Cards (src/poker/deck.py) -/

/-- `Suit` enum from deck.py; `value` is the one-character suit code. -/
inductive Suit
  | hearts
  | diamonds
  | clubs
  | spades
deriving DecidableEq, Repr

/-- `Suit.value`: the enum value strings "h" "d" "c" "s", as characters. -/
def Suit.value : Suit → Char
  | .hearts => 'h'
  | .diamonds => 'd'
  | .clubs => 'c'
  | .spades => 's'

/-- `Rank` enum from deck.py. -/
inductive Rank
  | two | three | four | five | six | seven | eight | nine | ten
  | jack | queen | king | ace
deriving DecidableEq, Repr

/-- `Rank.value`: the numeric value 2..14 of the enum. -/
def Rank.value : Rank → Nat
  | .two => 2
  | .three => 3
  | .four => 4
  | .five => 5
  | .six => 6
  | .seven => 7
  | .eight => 8
  | .nine => 9
  | .ten => 10
  | .jack => 11
  | .queen => 12
  | .king => 13
  | .ace => 14

/-- `Card` from deck.py: equality and hashing are by `(rank, suit)`.
The derived `treys_value` field is a pure function of rank and suit and
is not stored separately. -/
structure Card where
  rank : Rank
  suit : Suit
deriving DecidableEq, Repr

/-- The `rank_chars` table of `Card.__str__`. -/
def rank_char : Rank → Char
  | .two => '2'
  | .three => '3'
  | .four => '4'
  | .five => '5'
  | .six => '6'
  | .seven => '7'
  | .eight => '8'
  | .nine => '9'
  | .ten => 'T'
  | .jack => 'J'
  | .queen => 'Q'
  | .king => 'K'
  | .ace => 'A'

/-- `Card.__str__`: rank character followed by the suit's value character. -/
def cardToString (c : Card) : String :=
  String.mk [rank_char c.rank, c.suit.value]

/-- The `rank_map` of `Card.from_string`. -/
def rank_map : Char → Option Rank
  | '2' => some .two
  | '3' => some .three
  | '4' => some .four
  | '5' => some .five
  | '6' => some .six
  | '7' => some .seven
  | '8' => some .eight
  | '9' => some .nine
  | 'T' => some .ten
  | 'J' => some .jack
  | 'Q' => some .queen
  | 'K' => some .king
  | 'A' => some .ace
  | _ => none

/-- The `suit_map` of `Card.from_string`. -/
def suit_map : Char → Option Suit
  | 'h' => some .hearts
  | 'd' => some .diamonds
  | 'c' => some .clubs
  | 's' => some .spades
  | _ => none

/-- `Card.from_string`: a 2-character string, first character upper-cased
and looked up as a rank, second lower-cased and looked up as a suit.
The raised `ValueError`s become `Except.error` messages. -/
def Card.from_string (s : String) : Except String Card :=
  match s.data with
  | [rc, sc] =>
    let rank_ch := rc.toUpper
    let suit_ch := sc.toLower
    match rank_map rank_ch with
    | none => .error ("Invalid rank: " ++ String.mk [rank_ch])
    | some r =>
      match suit_map suit_ch with
      | none => .error ("Invalid suit: " ++ String.mk [suit_ch])
      | some su => .ok ⟨r, su⟩
  | _ => .error ("Invalid card string: " ++ s)

/-! ## Deck (src/poker/deck.py) -/

def allSuits : List Suit := [.hearts, .diamonds, .clubs, .spades]

def allRanks : List Rank :=
  [.two, .three, .four, .five, .six, .seven, .eight, .nine, .ten,
   .jack, .queen, .king, .ace]

/-- The 52-card list built by `Deck.reset`:
`for suit in Suit: for rank in Rank: append(Card(rank, suit))`. -/
def fullDeck : List Card :=
  allSuits.flatMap (fun s => allRanks.map (fun r => Card.mk r s))

/-- `Deck`: the live `cards` list. -/
structure Deck where
  cards : List Card
deriving DecidableEq, Repr

/-- `Deck.reset` / `Deck.__init__`. -/
def Deck.reset : Deck := ⟨fullDeck⟩

/-- The typed failure of `Deck.deal`, carrying the data of the raised
`ValueError` message "Cannot deal {num_cards} cards, only {len} remaining". -/
structure DeckExhausted where
  requested : Nat
  remaining : Nat
deriving DecidableEq, Repr

/-- `Deck.deal`: mutation-style embedding; the second component is the
deck state after the call (unchanged when the error is raised, since the
exception fires before any mutation). -/
def Deck.deal (d : Deck) (num_cards : Nat) :
    Except DeckExhausted (List Card) × Deck :=
  if num_cards > d.cards.length then
    (.error ⟨num_cards, d.cards.length⟩, d)
  else
    (.ok (d.cards.take num_cards), ⟨d.cards.drop num_cards⟩)

/-- `Deck.deal` packaged as a single `Except`, for the engine's
`do`-notation (the engine lets the exception propagate). -/
def Deck.dealE (d : Deck) (num_cards : Nat) :
    Except DeckExhausted (List Card × Deck) :=
  match d.deal num_cards with
  | (.ok cs, d') => .ok (cs, d')
  | (.error e, _) => .error e

/-- `Deck.burn_card`: pops the first card if the deck is non-empty,
otherwise does nothing (`List.tail [] = []`). -/
def Deck.burn_card (d : Deck) : Deck := ⟨d.cards.tail⟩

/-- `Deck.shuffle`: `random.shuffle` replaces the card list by a random
permutation of itself.  The randomness source is explicit: the proposed
new order is a parameter, applied only when it really is a permutation
of the current cards (which `random.shuffle` guarantees). -/
def Deck.shuffle (d : Deck) (order : List Card) : Deck :=
  if d.cards.Perm order then ⟨order⟩ else d

/-- `Deck.remaining_cards`. -/
def Deck.remaining_cards (d : Deck) : Nat := d.cards.length

/-! ### Hand-scoped deck usage trace (for the deck-integrity invariant)

The Python `Deck` does not record what it dealt or burned; the spec's
invariant is about a hand's usage of the deck.  `DeckTrace` accumulates
the dealt and burned cards alongside the live deck. -/

inductive DeckOp
  | deal (n : Nat)
  | burn
  | shuffle (order : List Card)

structure DeckTrace where
  dealt : List Card
  burned : List Card
  deck : Deck

/-- Applying one deck operation to a trace.  A failing `deal` leaves
everything unchanged (the exception propagates before mutation). -/
def applyOp (t : DeckTrace) : DeckOp → DeckTrace
  | .deal n =>
    match t.deck.deal n with
    | (.ok cs, d') => ⟨t.dealt ++ cs, t.burned, d'⟩
    | (.error _, _) => t
  | .burn =>
    match t.deck.cards with
    | [] => t
    | c :: rest => ⟨t.dealt, t.burned ++ [c], ⟨rest⟩⟩
  | .shuffle order => ⟨t.dealt, t.burned, t.deck.shuffle order⟩

/-- The trace of a fresh hand: nothing dealt or burned, deck just reset. -/
def initTrace : DeckTrace := ⟨[], [], Deck.reset⟩

/-- All cards accounted for by a trace, in order: dealt, burned, remaining. -/
def DeckTrace.allCards (t : DeckTrace) : List Card :=
  t.dealt ++ t.burned ++ t.deck.cards

/-! ## Players and actions (src/poker/player.py) -/

/-- The `Action` enum. -/
inductive Action
  | fold | check | call | bet | raiseAction | all_in
deriving DecidableEq, Repr

/-- `Action.value`: the enum's string value ("raise" for the raise member,
"all_in" for ALL_IN). -/
def Action.value : Action → String
  | .fold => "fold"
  | .check => "check"
  | .call => "call"
  | .bet => "bet"
  | .raiseAction => "raise"
  | .all_in => "all_in"

/-- `PlayerAction` dataclass.  Python stores a reference to the mutable
`Player`; the only uses of that reference downstream are `player.name`
(in `__str__` and winner lists), so the embedding stores the name. -/
structure PlayerAction where
  player_name : String
  action : Action
  amount : Int := 0
  street : String := ""
deriving DecidableEq, Repr

/-- `PlayerAction.__str__`. -/
def PlayerAction.toText (a : PlayerAction) : String :=
  match a.action with
  | .fold => a.player_name ++ " folds"
  | .check => a.player_name ++ " checks"
  | .call => a.player_name ++ " calls " ++ toString a.amount
  | .bet => a.player_name ++ " bets " ++ toString a.amount
  | .raiseAction => a.player_name ++ " raises to " ++ toString a.amount
  | .all_in => a.player_name ++ " all-in " ++ toString a.amount

/-- The integer counters of the `Player.stats` dictionary that the action
methods mutate (the derived float fields `win_rate`, `vpip`, `pfr`,
`fold_rate` are recomputed on read by `get_stats` and not tracked here). -/
structure PlayerStats where
  hands_played : Int := 0
  hands_won : Int := 0
  total_profit : Int := 0
  vpip_count : Int := 0
  pfr_count : Int := 0
  showdown_count : Int := 0
  fold_count : Int := 0
  total_bets : Int := 0
  total_raises : Int := 0
deriving DecidableEq, Repr

/-- `Player`, with the `AIPokerPlayer` subclass flattened into a tagged
variant: `is_ai` distinguishes the two classes (the spec itself models
the policy as a tagged variant), and `aggression` / `memory` are the
AI subclass's extra state (initialized to 0.5 / [] there, unused for
plain players). -/
structure Player where
  name : String
  stack : Int := 1000
  hand : List Card := []
  position : String := ""
  is_active : Bool := true
  is_all_in : Bool := false
  total_bet : Int := 0
  last_action : Option PlayerAction := none
  stats : PlayerStats := {}
  is_ai : Bool := false
  aggression : ℚ := 1/2
  memory : List (String × Bool) := []
deriving DecidableEq, Repr

instance : Inhabited Player := ⟨{ name := "" }⟩

/-- `Player.receive_cards`. -/
def Player.receive_cards (p : Player) (cards : List Card) : Player :=
  { p with hand := cards }

/-- `Player.clear_hand`. -/
def Player.clear_hand (p : Player) : Player :=
  { p with
      hand := []
      is_active := true
      is_all_in := false
      total_bet := 0
      last_action := none }

/-- `Player.all_in`: commits the whole remaining stack. -/
def Player.all_in (p : Player) : Player × PlayerAction :=
  let amount := p.stack
  let action : PlayerAction := ⟨p.name, .all_in, amount, ""⟩
  ({ p with
      stack := 0
      total_bet := p.total_bet + amount
      is_all_in := true
      last_action := some action
      stats := { p.stats with vpip_count := p.stats.vpip_count + 1 } },
   action)

/-- `Player.fold`. -/
def Player.fold (p : Player) : Player × PlayerAction :=
  let action : PlayerAction := ⟨p.name, .fold, 0, ""⟩
  ({ p with
      is_active := false
      last_action := some action
      stats := { p.stats with fold_count := p.stats.fold_count + 1 } },
   action)

/-- `Player.check`. -/
def Player.check (p : Player) : Player × PlayerAction :=
  let action : PlayerAction := ⟨p.name, .check, 0, ""⟩
  ({ p with last_action := some action }, action)

/-- `Player.call`: reclassified as all-in only when the requested amount
STRICTLY exceeds the stack. -/
def Player.call (p : Player) (amount : Int) : Player × PlayerAction :=
  if amount > p.stack then p.all_in
  else
    let action : PlayerAction := ⟨p.name, .call, amount, ""⟩
    ({ p with
        stack := p.stack - amount
        total_bet := p.total_bet + amount
        last_action := some action
        stats := { p.stats with vpip_count := p.stats.vpip_count + 1 } },
     action)

/-- `Player.bet`: reclassified as all-in when the amount is ≥ the stack. -/
def Player.bet (p : Player) (amount : Int) : Player × PlayerAction :=
  if amount ≥ p.stack then p.all_in
  else
    let action : PlayerAction := ⟨p.name, .bet, amount, ""⟩
    ({ p with
        stack := p.stack - amount
        total_bet := p.total_bet + amount
        last_action := some action
        stats := { p.stats with
                    vpip_count := p.stats.vpip_count + 1
                    total_bets := p.stats.total_bets + 1 } },
     action)

/-- `Player.raise_to`: reclassified as all-in when the target is ≥ the
stack; otherwise pays the increment `amount - total_bet`. -/
def Player.raise_to (p : Player) (amount : Int) : Player × PlayerAction :=
  if amount ≥ p.stack then p.all_in
  else
    let call_amount := amount - p.total_bet
    let action : PlayerAction := ⟨p.name, .raiseAction, amount, ""⟩
    ({ p with
        stack := p.stack - call_amount
        total_bet := p.total_bet + call_amount
        last_action := some action
        stats := { p.stats with
                    vpip_count := p.stats.vpip_count + 1
                    pfr_count := p.stats.pfr_count + 1
                    total_raises := p.stats.total_raises + 1 } },
     action)

/-- `Player.get_hand_string`. -/
def Player.get_hand_string (p : Player) : String :=
  if p.hand.isEmpty then "No cards"
  else String.intercalate " " (p.hand.map cardToString)

/-- `AIPokerPlayer.learn_from_hand`: appends to memory, then shifts
aggression by ±0.05 after an aggressive last action (up on win) and by
∓0.02 after a passive one (down on win), clamping at 1 above and 0
below. -/
def Player.learn_from_hand (p : Player) (won : Bool) (last_action : String) :
    Player :=
  let p := { p with memory := p.memory ++ [(last_action, won)] }
  if last_action = "bet" ∨ last_action = "raise" ∨ last_action = "all_in" then
    if won then { p with aggression := min 1 (p.aggression + 5/100) }
    else { p with aggression := max 0 (p.aggression - 5/100) }
  else if last_action = "fold" ∨ last_action = "check" ∨ last_action = "call" then
    if won then { p with aggression := max 0 (p.aggression - 2/100) }
    else { p with aggression := min 1 (p.aggression + 2/100) }
  else p

/-! ## Preflop hand strength (src/poker/engine.py, betting_round) -/

/-- The preflop strength computation of `PokerGame.betting_round`:
`ranks = [c.rank.value for c in player.hand]` followed by the rank-based
case split.  Every player holds exactly two cards when this runs; the
catch-all arm is unreachable in `play_hand` (Python would raise an
IndexError there). -/
def hand_strength_preflop (hand : List Card) : ℚ :=
  match hand with
  | c0 :: c1 :: _ =>
    let r0 := c0.rank.value
    let r1 := c1.rank.value
    if r0 = r1 ∧ 10 ≤ r0 then 9/10
    else if 12 ≤ max r0 r1 ∧ 11 ≤ min r0 r1 then 8/10
    else if 11 ≤ max r0 r1 then 6/10
    else 3/10
  | _ => 3/10

/-- The spec's description of the same computation (claim C2's wording):
0.9 for a pair of tens or better, else 0.8 when BOTH hole cards are
queen-or-better, else 0.6 when at least one is jack-or-better, else 0.3.
Stated from the spec's words, for comparison against the source. -/
def hand_strength_preflop_claimed (hand : List Card) : ℚ :=
  match hand with
  | c0 :: c1 :: _ =>
    let r0 := c0.rank.value
    let r1 := c1.rank.value
    if r0 = r1 ∧ 10 ≤ r0 then 9/10
    else if 12 ≤ r0 ∧ 12 ≤ r1 then 8/10
    else if 11 ≤ r0 ∨ 11 ≤ r1 then 6/10
    else 3/10
  | _ => 3/10

/-! ## Game engine (src/poker/engine.py)

The treys `Evaluator` is the external hand-strength oracle: `score` is
`evaluator.evaluate(board, hand)` (lower = stronger) and `percentile` is
`evaluator.get_five_card_rank_percentage`.  `random.random()` draws are
an explicit stream `rands : Nat → ℚ`, consumed one value per AI player
visited in a betting round, exactly as the source draws them. -/

structure Oracle where
  score : List Card → List Card → Int
  percentile : Int → ℚ

/-- The mutable state of a `PokerGame` (the unused `side_pots` list and
`button_position` counter are never read by any code path a claim
touches; `side_pots` in particular is only ever reset to empty). -/
structure GameState where
  players : List Player
  small_blind : Int := 10
  big_blind : Int := 20
  ante : Int := 0
  deck : Deck := Deck.reset
  community_cards : List Card := []
  pot : Int := 0
  hand_history : List PlayerAction := []
  button_position : Nat := 0
  current_bet : Int := 0
  street : String := "preflop"
deriving DecidableEq, Repr

/-- Replace the element at index `i` (Python's in-place mutation of one
list element); out-of-range indices leave the list unchanged. -/
def updateAt : List Player → Nat → (Player → Player) → List Player
  | [], _, _ => []
  | p :: ps, 0, f => f p :: ps
  | p :: ps, Nat.succ n, f => p :: updateAt ps n f

/-- The ante loop of `post_blinds_and_antes`:
`for player in self.players: player.stack -= ante; self.pot += ante`.
Note the stack is debited without any cap. -/
def post_antes : List Player → Int → Int → List Player × Int
  | [], _, pot => ([], pot)
  | p :: ps, ante, pot =>
    let (ps', pot') := post_antes ps ante (pot + ante)
    ({ p with stack := p.stack - ante } :: ps', pot')

/-- The ante half of `post_blinds_and_antes` (`if self.ante > 0: ...`). -/
def post_antes_state (g : GameState) : GameState :=
  if g.ante > 0 then
    { g with players := (post_antes g.players g.ante g.pot).1
             pot := (post_antes g.players g.ante g.pot).2 }
  else g

/-- The blind half of `post_blinds_and_antes`
(`if len(self.players) > 1: ...`): the small and big blinds from players
0 and 1, each capped at the poster's stack, with `current_bet` set to
the big-blind amount actually posted. -/
def post_blinds_only (g : GameState) : GameState :=
  if 1 < g.players.length then
    let sb_player := g.players.getD 0 default
    let bb_player := g.players.getD 1 default
    let sb_amt := min g.small_blind sb_player.stack
    let bb_amt := min g.big_blind bb_player.stack
    { g with
        players :=
          updateAt
            (updateAt g.players 0 (fun p =>
              { p with stack := p.stack - sb_amt
                       total_bet := p.total_bet + sb_amt }))
            1 (fun p =>
              { p with stack := p.stack - bb_amt
                       total_bet := p.total_bet + bb_amt })
        pot := g.pot + sb_amt + bb_amt
        current_bet := bb_amt
        hand_history := g.hand_history ++
          [⟨sb_player.name, .bet, sb_amt, "preflop"⟩,
           ⟨bb_player.name, .bet, bb_amt, "preflop"⟩] }
  else g

/-- `PokerGame.post_blinds_and_antes`: antes first, then blinds. -/
def post_blinds_and_antes (g : GameState) : GameState :=
  post_blinds_only (post_antes_state g)

/-- One player's turn inside `PokerGame.betting_round`, for a player that
is active and not all-in.  Returns the updated player, pot, current bet,
the recorded action, and the next randomness index (AI turns consume one
`random.random()` draw). -/
def visit_player (oracle : Oracle) (rands : Nat → ℚ) (street : String)
    (community : List Card) (big_blind : Int)
    (pot current_bet : Int) (i : Nat) (p : Player) :
    Player × Int × Int × PlayerAction × Nat :=
  let to_call := current_bet - p.total_bet
  if p.is_ai then
    let aggression := p.aggression
    let hand_strength : ℚ :=
      if street = "preflop" then hand_strength_preflop p.hand
      else 1 - oracle.percentile (oracle.score community p.hand)
    let rand_val := rands i
    if hand_strength + aggression * (1/2) ≥ 1 ∧ to_call = 0 ∧
        p.stack > 0 ∧ rand_val < aggression then
      let bet_amt := min (if pot > 0 then pot.fdiv 2 else big_blind) p.stack
      ({ p with stack := p.stack - bet_amt, total_bet := p.total_bet + bet_amt },
       pot + bet_amt, max current_bet (p.total_bet + bet_amt),
       ⟨p.name, .bet, bet_amt, street⟩, i + 1)
    else if hand_strength + aggression * (1/2) ≥ 7/10 ∧ p.stack ≥ to_call then
      ({ p with stack := p.stack - to_call, total_bet := p.total_bet + to_call },
       pot + to_call, current_bet, ⟨p.name, .call, to_call, street⟩, i + 1)
    else if hand_strength + aggression * (1/2) < 1/2 ∧ to_call > 0 ∧
        rand_val > aggression then
      ({ p with is_active := false }, pot, current_bet,
       ⟨p.name, .fold, 0, street⟩, i + 1)
    else
      (p, pot, current_bet, ⟨p.name, .check, 0, street⟩, i + 1)
  else
    if to_call > 0 then
      if p.stack ≥ to_call then
        ({ p with stack := p.stack - to_call, total_bet := p.total_bet + to_call },
         pot + to_call, current_bet, ⟨p.name, .call, to_call, street⟩, i)
      else
        ({ p with is_active := false }, pot, current_bet,
         ⟨p.name, .fold, 0, street⟩, i)
    else
      (p, pot, current_bet, ⟨p.name, .check, 0, street⟩, i)

/-- The player loop of `PokerGame.betting_round`: visits each player in
seating order exactly once, skipping inactive and all-in players, and
appends each produced action to the hand history. -/
def betting_round_aux (oracle : Oracle) (rands : Nat → ℚ) (street : String)
    (community : List Card) (big_blind : Int) :
    List Player → Int → Int → List PlayerAction → Nat →
    List Player × Int × Int × List PlayerAction × Nat
  | [], pot, cb, hist, i => ([], pot, cb, hist, i)
  | p :: ps, pot, cb, hist, i =>
    if ¬p.is_active ∨ p.is_all_in then
      let r := betting_round_aux oracle rands street community big_blind
        ps pot cb hist i
      (p :: r.1, r.2)
    else
      let v := visit_player oracle rands street community big_blind pot cb i p
      let r := betting_round_aux oracle rands street community big_blind
        ps v.2.1 v.2.2.1 (hist ++ [v.2.2.2.1]) v.2.2.2.2
      (v.1 :: r.1, r.2)

/-- `PokerGame.betting_round`. -/
def betting_round (oracle : Oracle) (rands : Nat → ℚ) (g : GameState)
    (street : String) (i : Nat) : GameState × Nat :=
  let r := betting_round_aux oracle rands street g.community_cards g.big_blind
    g.players g.pot g.current_bet g.hand_history i
  ({ g with players := r.1, pot := r.2.1, current_bet := r.2.2.1,
            hand_history := r.2.2.2.1 },
   r.2.2.2.2)

/-- `PokerGame.reset_hand`. -/
def reset_hand (g : GameState) : GameState :=
  { g with
      deck := Deck.reset
      community_cards := []
      pot := 0
      hand_history := []
      current_bet := 0
      street := "preflop"
      players := g.players.map Player.clear_hand }

/-- The dealing loop of `deal_hole_cards`:
`for player in self.players: player.receive_cards(self.deck.deal(2))`. -/
def deal_to_players : List Player → Deck → Except DeckExhausted (List Player × Deck)
  | [], d => .ok ([], d)
  | p :: ps, d => do
    let (cs, d₁) ← d.dealE 2
    let (ps', d₂) ← deal_to_players ps d₁
    .ok (p.receive_cards cs :: ps', d₂)

/-- `PokerGame.deal_hole_cards`: shuffle, then two cards to each player.
`shuffled` is the permutation chosen by `random.shuffle`. -/
def deal_hole_cards (g : GameState) (shuffled : List Card) :
    Except DeckExhausted GameState := do
  let d := g.deck.shuffle shuffled
  let (ps, d') ← deal_to_players g.players d
  .ok { g with players := ps, deck := d' }

/-- `PokerGame.deal_community_cards`: burn one, deal `num_cards`. -/
def deal_community_cards (g : GameState) (num_cards : Nat) :
    Except DeckExhausted GameState := do
  let d := g.deck.burn_card
  let (cs, d') ← d.dealE num_cards
  .ok { g with deck := d', community_cards := g.community_cards ++ cs }

/-- The accumulation loop of `PokerGame.showdown`, tracking the indices
of the active players sharing the minimal oracle score. -/
def showdown_aux (oracle : Oracle) (board : List Card) :
    List Player → Nat → Option Int → List Nat → List Nat
  | [], _, _, winners => winners
  | p :: ps, i, best, winners =>
    if ¬p.is_active then showdown_aux oracle board ps (i + 1) best winners
    else
      let score := oracle.score board p.hand
      match best with
      | none => showdown_aux oracle board ps (i + 1) (some score) [i]
      | some b =>
        if score < b then showdown_aux oracle board ps (i + 1) (some score) [i]
        else if score = b then
          showdown_aux oracle board ps (i + 1) (some b) (winners ++ [i])
        else showdown_aux oracle board ps (i + 1) best winners

/-- `PokerGame.showdown`, returning seat indices of the winners (the
source returns the player objects themselves; indices stand for those
references). -/
def showdown (oracle : Oracle) (g : GameState) : List Nat :=
  showdown_aux oracle g.community_cards g.players 0 none []

/-- The crediting loop of `distribute_pot`:
`for player in winners: player.stack += share`. -/
def credit_winners (share : Int) : List Player → List Nat → List Player
  | ps, [] => ps
  | ps, i :: rest =>
    credit_winners share
      (updateAt ps i (fun p => { p with stack := p.stack + share })) rest

/-- `PokerGame.distribute_pot`: with no winners, returns immediately
(the pot is NOT reset); otherwise pays `pot // len(winners)` (floor
division) to each winner and zeroes the pot, silently losing any
remainder. -/
def distribute_pot (g : GameState) (winners : List Nat) : GameState :=
  if winners = [] then g
  else
    let share := g.pot.fdiv winners.length
    { g with players := credit_winners share g.players winners, pot := 0 }

/-- The string handed to `learn_from_hand` in `play_hand`:
`player.last_action.action.value if player.last_action else 'check'`. -/
def lastActionString (p : Player) : String :=
  match p.last_action with
  | some a => a.action.value
  | none => "check"

/-- The result dictionary returned by `play_hand`. -/
structure HandResult where
  winners : List String
  pot : Int
  community_cards : List String
  hand_history : List String
  player_hands : List (String × String)
deriving DecidableEq, Repr

/-- The first part of `PokerGame.play_hand`: reset, deal hole cards,
post blinds and antes, and run the four betting streets with the
community cards dealt between them.  Returns the final randomness
index alongside the state. -/
def play_streets (oracle : Oracle) (g : GameState) (shuffled : List Card)
    (rands : Nat → ℚ) : Except DeckExhausted (GameState × Nat) := do
  let g0 := reset_hand g
  let g1 ← deal_hole_cards g0 shuffled
  let g2 := post_blinds_and_antes g1
  let r1 := betting_round oracle rands g2 "preflop" 0
  let g3 ← deal_community_cards r1.1 3
  let r2 := betting_round oracle rands g3 "flop" r1.2
  let g4 ← deal_community_cards r2.1 1
  let r3 := betting_round oracle rands g4 "turn" r2.2
  let g5 ← deal_community_cards r3.1 1
  let r4 := betting_round oracle rands g5 "river" r3.2
  .ok (r4.1, r4.2)

/-- The post-hand AI learning loop of `play_hand`. -/
def learning_step (winner_names : List String) (ps : List Player) : List Player :=
  ps.map (fun p =>
    if p.is_ai then
      p.learn_from_hand (decide (p.name ∈ winner_names)) (lastActionString p)
    else p)

/-- `PokerGame.play_hand`: streets, showdown, pot distribution, AI
learning, result record. -/
def play_hand (oracle : Oracle) (g : GameState) (shuffled : List Card)
    (rands : Nat → ℚ) : Except DeckExhausted (GameState × HandResult) := do
  let sr ← play_streets oracle g shuffled rands
  let winners := showdown oracle sr.1
  let pot_amount := sr.1.pot
  let g₂ := distribute_pot sr.1 winners
  let winner_names := winners.map (fun i => (sr.1.players.getD i default).name)
  let g₃ := { g₂ with players := learning_step winner_names g₂.players }
  let result : HandResult :=
    { winners := winner_names
      pot := pot_amount
      community_cards := sr.1.community_cards.map cardToString
      hand_history := sr.1.hand_history.map PlayerAction.toText
      player_hands := g₃.players.map (fun p => (p.name, p.get_hand_string)) }
  .ok (g₃, result)

/-! ## Equity estimator (src/poker/analysis.py)

`calculate_equity` uses the treys deck and evaluator.  The evaluator is
again the abstract oracle `score`; the per-iteration randomness (the
`random.choice` picks for hand classes and the pre-shuffled order of
the fresh treys deck) is an explicit environment. -/

/-- Per-iteration randomness for `calculate_equity`: the two
`random.choice` picks and the shuffled 52-card order of the fresh
treys `Deck()` of that iteration. -/
structure EquityEnv where
  pick1 : Nat
  pick2 : Nat
  deckOrder : List Card

/-- `TreysCard.new`: strict 2-character parse, upper-case rank character
and lower-case suit character only (no normalization; an invalid string
raises, which no valid descriptor ever triggers). -/
def treys_card_new (s : String) : Except String Card :=
  match s.data with
  | [rc, sc] =>
    match rank_map rc, suit_map sc with
    | some r, some su => .ok ⟨r, su⟩
    | _, _ => .error ("invalid treys card: " ++ s)
  | _ => .error ("invalid treys card: " ++ s)

/-- Result of `parse_hand`: either an exact two-card hand (4-character
descriptor) or a class of candidate two-card combos. -/
inductive ParsedHand
  | exact (c1 c2 : Card)
  | classOf (combos : List (Card × Card))

/-- The suit characters string `'cdhs'` of `parse_hand`. -/
def equitySuits : List Char := ['c', 'd', 'h', 's']

/-- `parse_hand` from `calculate_equity`: 4 characters name exact hole
cards; 2 characters name a pocket-pair class (all pairs of distinct
suits — the `s`-flag branch builds the same combos as the pair branch);
3 characters name a suited or offsuit class; anything else raises. -/
def parse_hand (hand_str : String) : Except String ParsedHand :=
  match hand_str.data with
  | [a, b, c, d] => do
    let c1 ← treys_card_new (String.mk [a, b])
    let c2 ← treys_card_new (String.mk [c, d])
    .ok (.exact c1 c2)
  | [r, s] =>
    if s = 's' then do
      let combos ← (equitySuits.flatMap (fun s1 =>
        (equitySuits.filter (fun s2 => s2 ≠ s1)).map (fun s2 => (s1, s2)))).mapM
        (fun pr => do
          let c1 ← treys_card_new (String.mk [r, pr.1])
          let c2 ← treys_card_new (String.mk [r, pr.2])
          pure (c1, c2))
      .ok (.classOf combos)
    else do
      let combos ← (equitySuits.flatMap (fun s1 =>
        (equitySuits.filter (fun s2 => s2 ≠ s1)).map (fun s2 => (s1, s2)))).mapM
        (fun pr => do
          let c1 ← treys_card_new (String.mk [r, pr.1])
          let c2 ← treys_card_new (String.mk [r, pr.2])
          pure (c1, c2))
      .ok (.classOf combos)
  | [r1, r2, suited] =>
    if suited = 's' then do
      let combos ← equitySuits.mapM (fun s => do
        let c1 ← treys_card_new (String.mk [r1, s])
        let c2 ← treys_card_new (String.mk [r2, s])
        pure (c1, c2))
      .ok (.classOf combos)
    else do
      let combos ← (equitySuits.flatMap (fun s1 =>
        (equitySuits.filter (fun s2 => s2 ≠ s1)).map (fun s2 => (s1, s2)))).mapM
        (fun pr => do
          let c1 ← treys_card_new (String.mk [r1, pr.1])
          let c2 ← treys_card_new (String.mk [r2, pr.2])
          pure (c1, c2))
      .ok (.classOf combos)
  | _ => .error ("Invalid hand string: " ++ hand_str)

instance : Inhabited Card := ⟨⟨.two, .hearts⟩⟩

/-- `random.choice` on a combo class (`if isinstance(h1[0], list)`); an
exact hand is used as is.  The pick index selects uniformly among the
combos (every index is quantified over, so every choice is covered). -/
def choose_combo (ph : ParsedHand) (pick : Nat) : Card × Card :=
  match ph with
  | .exact c1 c2 => (c1, c2)
  | .classOf combos => combos.getD (pick % combos.length) (default, default)

/-- Outcome of one Monte Carlo iteration. -/
inductive IterOutcome
  | win | tie | loss | skipped
deriving DecidableEq, Repr

/-- One iteration of the `calculate_equity` loop: fresh shuffled deck,
parse both descriptors, choose combos, remove the four hole cards from
the deck (first occurrence, if present — `if c in deck.cards:
deck.cards.remove(c)`), draw 5 board cards, score both hands.  The
`skipped` outcome is the `continue` taken when fewer than 5 board cards
could be drawn; the isinstance shape guards of the source are
tautological in the typed embedding. -/
def equity_iteration (score : List Card → List Card → Int)
    (hand1 hand2 : String) (e : EquityEnv) : Except String IterOutcome := do
  let ph1 ← parse_hand hand1
  let ph2 ← parse_hand hand2
  let h1 := choose_combo ph1 e.pick1
  let h2 := choose_combo ph2 e.pick2
  let deck := ((((e.deckOrder.erase h1.1).erase h1.2).erase h2.1).erase h2.2)
  let board := deck.take 5
  if board.length = 5 then
    let score1 := score board [h1.1, h1.2]
    let score2 := score board [h2.1, h2.2]
    if score1 < score2 then .ok .win
    else if score1 = score2 then .ok .tie
    else .ok .loss
  else .ok .skipped

/-- `calculate_equity`: runs `iterations` iterations, counts wins and
ties, and returns `(wins + 0.5 * ties) / iterations` (the claims only
concern `iterations ≥ 1`; ℚ division totalizes the n = 0
`ZeroDivisionError`). -/
def calculate_equity (score : List Card → List Card → Int)
    (hand1 hand2 : String) (iterations : Nat) (env : Nat → EquityEnv) :
    Except String ℚ := do
  let outcomes ← (List.range iterations).mapM
    (fun i => equity_iteration score hand1 hand2 (env i))
  let wins := (outcomes.filter (· = IterOutcome.win)).length
  let ties := (outcomes.filter (· = IterOutcome.tie)).length
  .ok (((wins : ℚ) + (1/2) * ties) / iterations)

/-! ## Concrete fixtures used to instantiate the theorems -/

/-- A trivial oracle: every hand scores 0, every percentile is 1/2. -/
def oracleZero : Oracle := ⟨fun _ _ => 0, fun _ => 1/2⟩

/-- A constant randomness stream. -/
def randsHalf : Nat → ℚ := fun _ => 1/2

/-- A two-seat game of plain (human-policy) players with the default
blinds. -/
def gTwoHumans : GameState :=
  { players := [{ name := "A", stack := 1000 }, { name := "B", stack := 1000 }] }

/-- The run of `play_streets` on the two-seat fixture (it succeeds; the
fallback arm is dead). -/
def exStreets : GameState × Nat :=
  match play_streets oracleZero gTwoHumans fullDeck randsHalf with
  | .ok r => r
  | .error _ => (gTwoHumans, 0)

/-- The run of `play_hand` on the two-seat fixture (it succeeds; the
fallback arm is dead). -/
def exHand : GameState × HandResult :=
  match play_hand oracleZero gTwoHumans fullDeck randsHalf with
  | .ok r => r
  | .error _ => (gTwoHumans, ⟨[], 0, [], [], []⟩)

/-- A fixed equity-iteration environment: no class picks, fresh deck in
canonical order. -/
def envCanonical : Nat → EquityEnv := fun _ => ⟨0, 0, fullDeck⟩

/-- Sum of the players' chip stacks. -/
def sumStacks (ps : List Player) : Int := (ps.map Player.stack).sum

/-- A player's state with the hole cards blanked, used to express that
an operation touches nothing but the hand. -/
def nonHand (p : Player) : Player := { p with hand := [] }

/-- The hand-scoped flags of a player: still active, all-in, and the
chips contributed this hand. -/
def flagsProj (p : Player) : Bool × Bool × Int :=
  (p.is_active, p.is_all_in, p.total_bet)

/-- The cards a trace accounts for are, as a multiset, exactly the full
52-card deck. -/
def TraceInv (t : DeckTrace) : Prop :=
  (t.dealt : Multiset Card) + (t.burned : Multiset Card) +
    (t.deck.cards : Multiset Card) = (fullDeck : Multiset Card)

/-- Betting-round invariant: some player is still active, not all-in,
and has already matched the current bet (so can never be forced to
fold).  Such a player survives the street, which makes the showdown's
winner set non-empty. -/
def GoodL (ps : List Player) (cb : Int) : Prop :=
  ∃ p ∈ ps, p.is_active = true ∧ p.is_all_in = false ∧ cb ≤ p.total_bet

/-! # Theorems -/

/-- Parsing the canonical string of any card recovers the card. -/
theorem from_string_cardToString (c : Card) :
    Card.from_string (cardToString c) = .ok c := by
  obtain ⟨r, s⟩ := c
  cases r <;> cases s <;> rfl

/-- C7: for every valid 2-character card string `s`, rendering the parsed
card back to a string and parsing again yields the same card:
`parse(to_string(parse(s))) == parse(s)`, with card equality by
`(rank, suit)`. -/
theorem card_roundtrip (s : String) (c : Card)
    (h : Card.from_string s = .ok c) :
    Card.from_string (cardToString c) = Card.from_string s := by
  rw [h, from_string_cardToString]

/-- Witness for `card_roundtrip` at the string "Ah". -/
theorem card_roundtrip_witness :
    Card.from_string "Ah" = .ok ⟨Rank.ace, Suit.hearts⟩ ∧
    Card.from_string (cardToString ⟨Rank.ace, Suit.hearts⟩) =
      Card.from_string "Ah" :=
  ⟨rfl, card_roundtrip "Ah" ⟨Rank.ace, Suit.hearts⟩ rfl⟩

/-- C6: `deal(n)` with `n` greater than the remaining count fails with
the typed `DeckExhausted` error (recording the requested and remaining
counts) and leaves the deck unchanged; with `n` at most the remaining
count it removes and returns the first `n` cards. -/
theorem deal_spec (d : Deck) (n : Nat) :
    (d.cards.length < n →
      d.deal n = (.error ⟨n, d.cards.length⟩, d)) ∧
    (n ≤ d.cards.length →
      d.deal n = (.ok (d.cards.take n), ⟨d.cards.drop n⟩)) := by
  constructor
  · intro h
    simp [Deck.deal, h]
  · intro h
    simp [Deck.deal]
    omega

/-- Witness for `deal_spec`: a fresh deck errors on 53 and deals 2. -/
theorem deal_spec_witness :
    Deck.reset.deal 53 = (.error ⟨53, 52⟩, Deck.reset) ∧
    Deck.reset.deal 2 =
      (.ok (Deck.reset.cards.take 2), ⟨Deck.reset.cards.drop 2⟩) := by
  constructor
  · have h := (deal_spec Deck.reset 53).1 (by decide)
    simpa using h
  · exact (deal_spec Deck.reset 2).2 (by decide)

/-! ### Deck-trace invariant (C5) -/

theorem coe_append_split (l₁ l₂ : List Card) :
    ((l₁ ++ l₂ : List Card) : Multiset Card) =
      (l₁ : Multiset Card) + (l₂ : Multiset Card) :=
  (Multiset.coe_add l₁ l₂).symm

theorem coe_cons_split (c : Card) (l : List Card) :
    ((c :: l : List Card) : Multiset Card) = {c} + (l : Multiset Card) := by
  rw [Multiset.singleton_add, Multiset.cons_coe]

theorem traceInv_init : TraceInv initTrace := by
  simp [TraceInv, initTrace, Deck.reset]

theorem traceInv_applyOp (t : DeckTrace) (op : DeckOp) (h : TraceInv t) :
    TraceInv (applyOp t op) := by
  cases op with
  | deal n =>
    by_cases hn : n > t.deck.cards.length
    · simpa only [applyOp, Deck.deal, hn, if_true] using h
    · have hsplit : (t.deck.cards.take n : Multiset Card) +
          (t.deck.cards.drop n : Multiset Card) =
          (t.deck.cards : Multiset Card) := by
        rw [Multiset.coe_add, List.take_append_drop]
      simp only [applyOp, Deck.deal, hn, if_false]
      unfold TraceInv
      dsimp only
      rw [coe_append_split]
      calc (t.dealt : Multiset Card) + (t.deck.cards.take n : Multiset Card) +
              (t.burned : Multiset Card) + (t.deck.cards.drop n : Multiset Card)
          = (t.dealt : Multiset Card) + (t.burned : Multiset Card) +
              ((t.deck.cards.take n : Multiset Card) +
               (t.deck.cards.drop n : Multiset Card)) := by abel
        _ = (t.dealt : Multiset Card) + (t.burned : Multiset Card) +
              (t.deck.cards : Multiset Card) := by rw [hsplit]
        _ = (fullDeck : Multiset Card) := h
  | burn =>
    cases hc : t.deck.cards with
    | nil =>
      have he : applyOp t .burn = t := by simp [applyOp, hc]
      rw [he]; exact h
    | cons c rest =>
      unfold TraceInv at h
      rw [hc, coe_cons_split] at h
      simp only [applyOp, hc]
      unfold TraceInv
      dsimp only
      rw [coe_append_split, Multiset.coe_singleton]
      calc (t.dealt : Multiset Card) + ((t.burned : Multiset Card) + {c}) +
              (rest : Multiset Card)
          = (t.dealt : Multiset Card) + (t.burned : Multiset Card) +
              ({c} + (rest : Multiset Card)) := by abel
        _ = (fullDeck : Multiset Card) := h
  | shuffle order =>
    by_cases hp : t.deck.cards.Perm order
    · have he : applyOp t (.shuffle order) = ⟨t.dealt, t.burned, ⟨order⟩⟩ := by
        simp [applyOp, Deck.shuffle, hp]
      rw [he]
      unfold TraceInv at h ⊢
      dsimp only
      rw [← Multiset.coe_eq_coe.mpr hp]
      exact h
    · have he : applyOp t (.shuffle order) = t := by
        simp [applyOp, Deck.shuffle, hp]
      rw [he]; exact h

theorem traceInv_foldl (ops : List DeckOp) :
    ∀ t : DeckTrace, TraceInv t → TraceInv (ops.foldl applyOp t) := by
  induction ops with
  | nil => intro t h; exact h
  | cons op rest ih =>
    intro t h
    exact ih (applyOp t op) (traceInv_applyOp t op h)

theorem traceInv_allCards_perm (t : DeckTrace) (h : TraceInv t) :
    t.allCards.Perm fullDeck := by
  apply Multiset.coe_eq_coe.mp
  unfold DeckTrace.allCards
  rw [coe_append_split, coe_append_split]
  unfold TraceInv at h
  rw [← h]

theorem fullDeck_nodup : fullDeck.Nodup := by decide

theorem fullDeck_length : fullDeck.length = 52 := by decide

/-- Reducing `applyOp` on a successful deal. -/
theorem applyOp_deal_ok (t : DeckTrace) (n : Nat)
    (h : n ≤ t.deck.cards.length) :
    applyOp t (.deal n) =
      ⟨t.dealt ++ t.deck.cards.take n, t.burned, ⟨t.deck.cards.drop n⟩⟩ := by
  have hn : ¬ n > t.deck.cards.length := by omega
  simp [applyOp, Deck.deal, hn]

/-- Length bookkeeping of one two-card deal. -/
theorem deal2_step (t : DeckTrace) (m k : Nat)
    (hlen : t.deck.cards.length = m + 2) (hd : t.dealt.length = k) :
    (applyOp t (.deal 2)).deck.cards.length = m ∧
    (applyOp t (.deal 2)).dealt.length = k + 2 := by
  rw [applyOp_deal_ok t 2 (by omega)]
  refine ⟨?_, ?_⟩
  · simp only [List.length_drop, hlen]
    omega
  · simp only [List.length_append, List.length_take, hlen, hd]
    omega

/-- C5: after `Deck.reset` the deck holds 52 pairwise-distinct cards, and
every sequence of deal/burn/shuffle operations within a hand keeps the
dealt, burned and remaining cards pairwise distinct with total 52; in
particular dealing 2 cards to each of 4 players from a fresh (arbitrarily
shuffled) deck yields 8 distinct dealt cards with 44 remaining. -/
theorem deck_integrity :
    Deck.reset.cards.length = 52 ∧ Deck.reset.cards.Nodup ∧
    (∀ ops : List DeckOp,
      (ops.foldl applyOp initTrace).allCards.Nodup ∧
      (ops.foldl applyOp initTrace).allCards.length = 52) ∧
    (∀ order : List Card,
      ([DeckOp.shuffle order, .deal 2, .deal 2, .deal 2, .deal 2].foldl
          applyOp initTrace).dealt.length = 8 ∧
      ([DeckOp.shuffle order, .deal 2, .deal 2, .deal 2, .deal 2].foldl
          applyOp initTrace).dealt.Nodup ∧
      ([DeckOp.shuffle order, .deal 2, .deal 2, .deal 2, .deal 2].foldl
          applyOp initTrace).deck.cards.length = 44) := by
  have hinv : ∀ ops : List DeckOp,
      (ops.foldl applyOp initTrace).allCards.Perm fullDeck := fun ops =>
    traceInv_allCards_perm _ (traceInv_foldl ops initTrace traceInv_init)
  refine ⟨fullDeck_length, fullDeck_nodup, ?_, ?_⟩
  · intro ops
    refine ⟨((hinv ops).nodup_iff).mpr fullDeck_nodup, ?_⟩
    rw [(hinv ops).length_eq, fullDeck_length]
  · intro order
    have h1 : (applyOp initTrace (DeckOp.shuffle order)).deck.cards.length = 52 ∧
        (applyOp initTrace (DeckOp.shuffle order)).dealt.length = 0 := by
      constructor
      · show (Deck.reset.shuffle order).cards.length = 52
        unfold Deck.shuffle
        by_cases hp : Deck.reset.cards.Perm order
        · rw [if_pos hp]
          rw [← hp.length_eq]
          exact fullDeck_length
        · rw [if_neg hp]
          exact fullDeck_length
      · rfl
    have h2 := deal2_step (applyOp initTrace (DeckOp.shuffle order)) 50 0
      (by rw [h1.1]) h1.2
    have h3 := deal2_step _ 48 2 (by rw [h2.1]) (by rw [h2.2])
    have h4 := deal2_step _ 46 4 (by rw [h3.1]) (by rw [h3.2])
    have h5 := deal2_step _ 44 6 (by rw [h4.1]) (by rw [h4.2])
    have hfold : [DeckOp.shuffle order, .deal 2, .deal 2, .deal 2, .deal 2].foldl
        applyOp initTrace =
        applyOp (applyOp (applyOp (applyOp (applyOp initTrace
          (.shuffle order)) (.deal 2)) (.deal 2)) (.deal 2)) (.deal 2) := by
      rw [List.foldl_cons, List.foldl_cons, List.foldl_cons, List.foldl_cons,
        List.foldl_cons, List.foldl_nil]
    have hperm := hinv [DeckOp.shuffle order, .deal 2, .deal 2, .deal 2, .deal 2]
    have hall := (hperm.nodup_iff).mpr fullDeck_nodup
    unfold DeckTrace.allCards at hall
    rw [hfold] at hall
    refine ⟨?_, ?_, ?_⟩
    · rw [hfold]; exact h5.2
    · rw [hfold]; exact hall.of_append_left.of_append_left
    · rw [hfold]; exact h5.1

/-! ### Player action methods (C3) -/

/-- C3 counterexample: with a stack of 100, `call(100)` has the requested
amount equal to (hence ≥) the stack, yet the action is recorded as a
plain CALL, not reclassified as all-in — `call` only reclassifies on a
strict excess. -/
theorem call_at_stack_is_not_all_in :
    (100 : Int) ≥ ({ name := "P", stack := 100 } : Player).stack ∧
    (Player.call { name := "P", stack := 100 } 100).2.action = Action.call ∧
    (Player.call { name := "P", stack := 100 } 100).2.action ≠ Action.all_in := by
  refine ⟨by decide, ?_, ?_⟩ <;> decide

/-- C3 amended: `bet` and `raise_to` reclassify as all-in whenever the
requested amount is ≥ the stack, while `call` does so only when the
amount STRICTLY exceeds the stack (calling exactly the stack stays a
CALL that empties the stack); for nonnegative stack, total_bet and
requested amounts (raise targets at least total_bet), the amount paid is
never negative and never exceeds the stack, so the stack never goes
below zero through these methods. -/
theorem action_amount_capping (p : Player) (amount : Int)
    (hstack : 0 ≤ p.stack) (hamt : 0 ≤ amount) (htb : 0 ≤ p.total_bet) :
    (amount > p.stack → p.call amount = p.all_in) ∧
    (amount ≤ p.stack →
      (p.call amount).2.action = Action.call ∧
      (p.call amount).1.stack = p.stack - amount ∧
      0 ≤ (p.call amount).2.amount ∧
      (p.call amount).2.amount ≤ p.stack ∧
      0 ≤ (p.call amount).1.stack) ∧
    (amount ≥ p.stack → p.bet amount = p.all_in) ∧
    (amount < p.stack →
      (p.bet amount).2.action = Action.bet ∧
      (p.bet amount).1.stack = p.stack - amount ∧
      0 ≤ (p.bet amount).2.amount ∧
      (p.bet amount).2.amount ≤ p.stack ∧
      0 < (p.bet amount).1.stack) ∧
    (amount ≥ p.stack → p.raise_to amount = p.all_in) ∧
    (amount < p.stack → p.total_bet ≤ amount →
      (p.raise_to amount).2.action = Action.raiseAction ∧
      (p.raise_to amount).1.stack = p.stack - (amount - p.total_bet) ∧
      0 ≤ p.stack - (p.raise_to amount).1.stack ∧
      p.stack - (p.raise_to amount).1.stack ≤ p.stack ∧
      0 < (p.raise_to amount).1.stack) ∧
    (p.all_in.1.stack = 0 ∧ p.all_in.2.amount = p.stack ∧
      0 ≤ p.all_in.2.amount) := by
  refine ⟨?_, ?_, ?_, ?_, ?_, ?_, rfl, rfl, hstack⟩
  · intro h
    simp [Player.call, h]
  · intro h
    have hn : ¬ amount > p.stack := by omega
    refine ⟨by simp [Player.call, hn], by simp [Player.call, hn],
      ?_, ?_, ?_⟩ <;> simp [Player.call, hn] <;> omega
  · intro h
    simp [Player.bet, h]
  · intro h
    have hn : ¬ amount ≥ p.stack := by omega
    refine ⟨by simp [Player.bet, hn], by simp [Player.bet, hn],
      ?_, ?_, ?_⟩ <;> simp [Player.bet, hn] <;> omega
  · intro h
    simp [Player.raise_to, h]
  · intro h htarget
    have hn : ¬ amount ≥ p.stack := by omega
    refine ⟨by simp [Player.raise_to, hn], by simp [Player.raise_to, hn],
      ?_, ?_, ?_⟩ <;> simp [Player.raise_to, hn] <;> omega

/-- Witness for `action_amount_capping` at concrete players/amounts. -/
theorem action_amount_capping_witness :
    (Player.call { name := "W", stack := 100, total_bet := 10 } 50).2.action =
      Action.call ∧
    (Player.bet { name := "W", stack := 100, total_bet := 10 } 100).2.action =
      Action.all_in := by
  have h50 := action_amount_capping
    { name := "W", stack := 100, total_bet := 10 } 50
    (by decide) (by decide) (by decide)
  have h100 := action_amount_capping
    { name := "W", stack := 100, total_bet := 10 } 100
    (by decide) (by decide) (by decide)
  constructor
  · exact (h50.2.1 (by decide)).1
  · rw [h100.2.2.1 (by decide)]
    decide

/-! ### AI learning update (C9) -/

/-- One learning update keeps aggression inside the unit interval. -/
theorem learn_from_hand_bounds (p : Player) (won : Bool) (la : String)
    (h0 : 0 ≤ p.aggression) (h1 : p.aggression ≤ 1) :
    0 ≤ (p.learn_from_hand won la).aggression ∧
      (p.learn_from_hand won la).aggression ≤ 1 := by
  unfold Player.learn_from_hand
  dsimp only
  split_ifs <;> dsimp only <;> constructor <;>
    first
      | assumption
      | (simp only [min_def, max_def]; split_ifs <;> linarith)

/-- Any number of learning updates keeps aggression inside [0,1]. -/
theorem learn_foldl_bounds (updates : List (Bool × String)) :
    ∀ p : Player, 0 ≤ p.aggression → p.aggression ≤ 1 →
      0 ≤ (updates.foldl (fun q u => q.learn_from_hand u.1 u.2) p).aggression ∧
      (updates.foldl (fun q u => q.learn_from_hand u.1 u.2) p).aggression ≤ 1 := by
  induction updates with
  | nil => intro p h0 h1; exact ⟨h0, h1⟩
  | cons u rest ih =>
    intro p h0 h1
    have hb := learn_from_hand_bounds p u.1 u.2 h0 h1
    exact ih _ hb.1 hb.2

/-- C9: for aggression starting in [0,1], a learning update moves it by
+0.05 on a win and −0.05 on a loss after an aggressive last action
(bet/raise/all_in), by −0.02 on a win and +0.02 on a loss after a
passive one (fold/check/call), clamped to [0,1]; and after arbitrarily
many updates aggression stays in [0,1]. -/
theorem aggression_update (p : Player) (won : Bool) (la : String)
    (h0 : 0 ≤ p.aggression) (h1 : p.aggression ≤ 1) :
    ((la = "bet" ∨ la = "raise" ∨ la = "all_in") →
      (p.learn_from_hand won la).aggression =
        (if won then min 1 (p.aggression + 5/100)
         else max 0 (p.aggression - 5/100))) ∧
    ((la = "fold" ∨ la = "check" ∨ la = "call") →
      (p.learn_from_hand won la).aggression =
        (if won then max 0 (p.aggression - 2/100)
         else min 1 (p.aggression + 2/100))) ∧
    0 ≤ (p.learn_from_hand won la).aggression ∧
    (p.learn_from_hand won la).aggression ≤ 1 ∧
    (∀ updates : List (Bool × String),
      0 ≤ (updates.foldl (fun q u => q.learn_from_hand u.1 u.2) p).aggression ∧
      (updates.foldl (fun q u => q.learn_from_hand u.1 u.2) p).aggression ≤ 1) := by
  have hb := learn_from_hand_bounds p won la h0 h1
  refine ⟨?_, ?_, hb.1, hb.2, fun updates => learn_foldl_bounds updates p h0 h1⟩
  · intro hla
    rcases hla with h | h | h <;> subst h <;>
      cases won <;> simp [Player.learn_from_hand]
  · intro hla
    rcases hla with h | h | h <;> subst h <;>
      cases won <;> simp [Player.learn_from_hand]

/-- Witness for `aggression_update` at a concrete player. -/
theorem aggression_update_witness :
    (Player.learn_from_hand
      { name := "W", is_ai := true, aggression := 1/2 } true "bet").aggression =
      (if true then min 1 ((1:ℚ)/2 + 5/100) else max 0 ((1:ℚ)/2 - 5/100)) ∧
    0 ≤ (Player.learn_from_hand
      { name := "W", is_ai := true, aggression := 1/2 } true "bet").aggression := by
  have h := aggression_update
    { name := "W", is_ai := true, aggression := 1/2 } true "bet"
    (by norm_num) (by norm_num)
  exact ⟨h.1 (Or.inl rfl), h.2.2.1⟩

/-! ### Preflop hand strength (C2) -/

/-- C2 counterexample: queen + jack offsuit.  The source's second branch
fires (`max ≥ 12 and min ≥ 11`) giving 0.8, while the claim's "both hole
cards queen-or-better" is false for the jack, so the claim predicts 0.6:
the computed strength differs from the claimed function at this hand. -/
theorem preflop_strength_qj_counterexample :
    hand_strength_preflop
      [⟨Rank.queen, Suit.hearts⟩, ⟨Rank.jack, Suit.spades⟩] = 8/10 ∧
    hand_strength_preflop_claimed
      [⟨Rank.queen, Suit.hearts⟩, ⟨Rank.jack, Suit.spades⟩] = 6/10 ∧
    hand_strength_preflop
      [⟨Rank.queen, Suit.hearts⟩, ⟨Rank.jack, Suit.spades⟩] ≠
      hand_strength_preflop_claimed
        [⟨Rank.queen, Suit.hearts⟩, ⟨Rank.jack, Suit.spades⟩] := by
  refine ⟨?_, ?_, ?_⟩ <;>
    norm_num [hand_strength_preflop, hand_strength_preflop_claimed, Rank.value]

/-- C2 amended: the preflop strength is 0.9 for a pair of tens or
better; else 0.8 when the HIGHER hole card is queen-or-better AND the
LOWER one is jack-or-better; else 0.6 when at least one hole card is
jack-or-better; else 0.3. -/
theorem preflop_strength_cases (c0 c1 : Card) :
    (c0.rank.value = c1.rank.value ∧ 10 ≤ c0.rank.value →
      hand_strength_preflop [c0, c1] = 9/10) ∧
    (¬(c0.rank.value = c1.rank.value ∧ 10 ≤ c0.rank.value) →
      12 ≤ max c0.rank.value c1.rank.value ∧
        11 ≤ min c0.rank.value c1.rank.value →
      hand_strength_preflop [c0, c1] = 8/10) ∧
    (¬(c0.rank.value = c1.rank.value ∧ 10 ≤ c0.rank.value) →
      ¬(12 ≤ max c0.rank.value c1.rank.value ∧
        11 ≤ min c0.rank.value c1.rank.value) →
      (11 ≤ c0.rank.value ∨ 11 ≤ c1.rank.value) →
      hand_strength_preflop [c0, c1] = 6/10) ∧
    (¬(c0.rank.value = c1.rank.value ∧ 10 ≤ c0.rank.value) →
      ¬(12 ≤ max c0.rank.value c1.rank.value ∧
        11 ≤ min c0.rank.value c1.rank.value) →
      ¬(11 ≤ c0.rank.value ∨ 11 ≤ c1.rank.value) →
      hand_strength_preflop [c0, c1] = 3/10) := by
  have hdef : hand_strength_preflop [c0, c1] =
      (if c0.rank.value = c1.rank.value ∧ 10 ≤ c0.rank.value then (9:ℚ)/10
       else if 12 ≤ max c0.rank.value c1.rank.value ∧
           11 ≤ min c0.rank.value c1.rank.value then 8/10
       else if 11 ≤ max c0.rank.value c1.rank.value then 6/10
       else 3/10) := rfl
  rw [hdef]
  refine ⟨?_, ?_, ?_, ?_⟩
  · intro h
    rw [if_pos h]
  · intro h1 h2
    rw [if_neg h1, if_pos h2]
  · intro h1 h2 h3
    rw [if_neg h1, if_neg h2, if_pos (le_max_iff.mpr h3)]
  · intro h1 h2 h3
    rw [if_neg h1, if_neg h2, if_neg (fun hc => h3 (le_max_iff.mp hc))]

/-- Witness for `preflop_strength_cases`: a pair of tens scores 0.9 and
a seven-deuce scores 0.3. -/
theorem preflop_strength_cases_witness :
    hand_strength_preflop
      [⟨Rank.ten, Suit.hearts⟩, ⟨Rank.ten, Suit.spades⟩] = 9/10 ∧
    hand_strength_preflop
      [⟨Rank.seven, Suit.hearts⟩, ⟨Rank.two, Suit.spades⟩] = 3/10 := by
  constructor
  · exact (preflop_strength_cases ⟨Rank.ten, Suit.hearts⟩
      ⟨Rank.ten, Suit.spades⟩).1 (by decide)
  · exact (preflop_strength_cases ⟨Rank.seven, Suit.hearts⟩
      ⟨Rank.two, Suit.spades⟩).2.2.2 (by decide) (by decide) (by decide)

/-! ### Index-update and pot-crediting lemmas (C4, C1) -/

theorem updateAt_length (ps : List Player) (i : Nat) (f : Player → Player) :
    (updateAt ps i f).length = ps.length := by
  induction ps generalizing i with
  | nil => rfl
  | cons p ps ih =>
    cases i with
    | zero => rfl
    | succ n => simp [updateAt, ih]

theorem updateAt_get?_ne (ps : List Player) (i j : Nat) (f : Player → Player)
    (h : j ≠ i) : (updateAt ps i f).get? j = ps.get? j := by
  induction ps generalizing i j with
  | nil => rfl
  | cons p ps ih =>
    cases i with
    | zero =>
      cases j with
      | zero => exact absurd rfl h
      | succ m => rfl
    | succ n =>
      cases j with
      | zero => rfl
      | succ m => simpa [updateAt] using ih n m (by omega)

theorem updateAt_get?_eq (ps : List Player) (i : Nat) (f : Player → Player) :
    (updateAt ps i f).get? i = (ps.get? i).map f := by
  induction ps generalizing i with
  | nil => rfl
  | cons p ps ih =>
    cases i with
    | zero => rfl
    | succ n => simpa [updateAt] using ih n

theorem credit_length (share : Int) (ws : List Nat) :
    ∀ ps : List Player, (credit_winners share ps ws).length = ps.length := by
  induction ws with
  | nil => intro ps; rfl
  | cons k rest ih =>
    intro ps
    simpa [credit_winners, ih] using updateAt_length ps k _

theorem credit_get?_notin (share : Int) (ws : List Nat) :
    ∀ (ps : List Player) (j : Nat), j ∉ ws →
      (credit_winners share ps ws).get? j = ps.get? j := by
  induction ws with
  | nil => intro ps j _; rfl
  | cons k rest ih =>
    intro ps j hj
    have hjk : j ≠ k := fun h => hj (h ▸ List.mem_cons_self k rest)
    have hjr : j ∉ rest := fun h => hj (List.mem_cons_of_mem k h)
    calc (credit_winners share ps (k :: rest)).get? j
        = (credit_winners share
            (updateAt ps k (fun p => { p with stack := p.stack + share }))
            rest).get? j := rfl
      _ = (updateAt ps k (fun p => { p with stack := p.stack + share })).get? j :=
          ih _ j hjr
      _ = ps.get? j := updateAt_get?_ne ps k j _ hjk

theorem credit_get?_in (share : Int) (ws : List Nat) :
    ∀ (ps : List Player) (i : Nat), List.Pairwise (· < ·) ws → i ∈ ws →
      (credit_winners share ps ws).get? i =
        (ps.get? i).map (fun p => { p with stack := p.stack + share }) := by
  induction ws with
  | nil => intro ps i _ hi; exact absurd hi (List.not_mem_nil i)
  | cons k rest ih =>
    intro ps i hpw hi
    have hrest : ∀ j ∈ rest, k < j := (List.pairwise_cons.mp hpw).1
    rcases List.mem_cons.mp hi with hik | hir
    · subst hik
      have hnotin : i ∉ rest := fun h => absurd (hrest i h) (lt_irrefl i)
      calc (credit_winners share ps (i :: rest)).get? i
          = (credit_winners share
              (updateAt ps i (fun p => { p with stack := p.stack + share }))
              rest).get? i := rfl
        _ = (updateAt ps i (fun p => { p with stack := p.stack + share })).get? i :=
            credit_get?_notin share rest _ i hnotin
        _ = (ps.get? i).map (fun p => { p with stack := p.stack + share }) :=
            updateAt_get?_eq ps i _
    · have hik : i ≠ k := fun h => absurd (hrest i (h ▸ hir)) (by omega)
      calc (credit_winners share ps (k :: rest)).get? i
          = (credit_winners share
              (updateAt ps k (fun p => { p with stack := p.stack + share }))
              rest).get? i := rfl
        _ = ((updateAt ps k (fun p => { p with stack := p.stack + share })).get? i).map
              (fun p => { p with stack := p.stack + share }) :=
            ih _ i (List.pairwise_cons.mp hpw).2 hir
        _ = (ps.get? i).map (fun p => { p with stack := p.stack + share }) := by
            rw [updateAt_get?_ne ps k i _ hik]

theorem updateAt_sumStacks (ps : List Player) (i : Nat) (share : Int)
    (h : i < ps.length) :
    sumStacks (updateAt ps i (fun p => { p with stack := p.stack + share })) =
      sumStacks ps + share := by
  induction ps generalizing i with
  | nil => simp at h
  | cons p ps ih =>
    cases i with
    | zero =>
      simp [updateAt, sumStacks]
      ring
    | succ n =>
      have hn : n < ps.length := by simpa using h
      have := ih n hn
      simp [updateAt, sumStacks] at this ⊢
      omega

theorem credit_sumStacks (share : Int) (ws : List Nat) :
    ∀ ps : List Player, (∀ i ∈ ws, i < ps.length) →
      sumStacks (credit_winners share ps ws) =
        sumStacks ps + share * ws.length := by
  induction ws with
  | nil => intro ps _; simp [credit_winners]
  | cons k rest ih =>
    intro ps hbound
    have hk : k < ps.length := hbound k (List.mem_cons_self k rest)
    have hrest : ∀ i ∈ rest,
        i < (updateAt ps k (fun p => { p with stack := p.stack + share })).length := by
      intro i hi
      rw [updateAt_length]
      exact hbound i (List.mem_cons_of_mem k hi)
    calc sumStacks (credit_winners share ps (k :: rest))
        = sumStacks (credit_winners share
            (updateAt ps k (fun p => { p with stack := p.stack + share })) rest) := rfl
      _ = sumStacks (updateAt ps k (fun p => { p with stack := p.stack + share })) +
            share * rest.length := ih _ hrest
      _ = sumStacks ps + share + share * rest.length := by
          rw [updateAt_sumStacks ps k share hk]
      _ = sumStacks ps + share * (k :: rest).length := by
          simp [List.length_cons]
          ring

/-! ### Showdown winner-set lemmas (C4, C1) -/

theorem showdown_aux_bound (oracle : Oracle) (board : List Card) :
    ∀ (ps : List Player) (i : Nat) (best : Option Int) (w : List Nat),
      (∀ j ∈ w, j < i) →
      ∀ j ∈ showdown_aux oracle board ps i best w, j < i + ps.length := by
  intro ps
  induction ps with
  | nil =>
    intro i best w hw j hj
    simpa using (hw j hj).trans_le (by simp)
  | cons p ps ih =>
    intro i best w hw j hj
    have step : ∀ w' : List Nat, (∀ x ∈ w', x < i + 1) →
        ∀ x ∈ showdown_aux oracle board ps (i + 1) (some (oracle.score board p.hand)) w',
          x < i + (p :: ps).length := by
      intro w' hw' x hx
      have := ih (i + 1) (some (oracle.score board p.hand)) w' hw' x hx
      simpa [List.length_cons] using by omega
    by_cases ha : ¬p.is_active = true
    · have : showdown_aux oracle board (p :: ps) i best w =
          showdown_aux oracle board ps (i + 1) best w := by
        simp [showdown_aux, ha]
      rw [this] at hj
      have := ih (i + 1) best w (fun x hx => (hw x hx).trans (by omega)) j hj
      simpa [List.length_cons] using by omega
    · cases best with
      | none =>
        have : showdown_aux oracle board (p :: ps) i none w =
            showdown_aux oracle board ps (i + 1)
              (some (oracle.score board p.hand)) [i] := by
          simp [showdown_aux, ha]
        rw [this] at hj
        exact step [i] (by simp) j hj
      | some b =>
        by_cases hlt : oracle.score board p.hand < b
        · have : showdown_aux oracle board (p :: ps) i (some b) w =
              showdown_aux oracle board ps (i + 1)
                (some (oracle.score board p.hand)) [i] := by
            simp [showdown_aux, ha, hlt]
          rw [this] at hj
          exact step [i] (by simp) j hj
        · by_cases heq : oracle.score board p.hand = b
          · have : showdown_aux oracle board (p :: ps) i (some b) w =
                showdown_aux oracle board ps (i + 1) (some b) (w ++ [i]) := by
              simp [showdown_aux, ha, hlt, heq]
            rw [this] at hj
            have hw' : ∀ x ∈ w ++ [i], x < i + 1 := by
              intro x hx
              rcases List.mem_append.mp hx with hx | hx
              · exact (hw x hx).trans (by omega)
              · simpa using List.mem_singleton.mp hx ▸ (by omega : i < i + 1)
            have := ih (i + 1) (some b) (w ++ [i]) hw' j hj
            simpa [List.length_cons] using by omega
          · have : showdown_aux oracle board (p :: ps) i (some b) w =
                showdown_aux oracle board ps (i + 1) (some b) w := by
              simp [showdown_aux, ha, hlt, heq]
            rw [this] at hj
            have := ih (i + 1) (some b) w
              (fun x hx => (hw x hx).trans (by omega)) j hj
            simpa [List.length_cons] using by omega

theorem showdown_aux_pairwise (oracle : Oracle) (board : List Card) :
    ∀ (ps : List Player) (i : Nat) (best : Option Int) (w : List Nat),
      List.Pairwise (· < ·) w → (∀ j ∈ w, j < i) →
      List.Pairwise (· < ·) (showdown_aux oracle board ps i best w) := by
  intro ps
  induction ps with
  | nil => intro i best w hp _; exact hp
  | cons p ps ih =>
    intro i best w hp hw
    have hw1 : ∀ j ∈ w, j < i + 1 := fun j hj => (hw j hj).trans (by omega)
    by_cases ha : ¬p.is_active = true
    · have : showdown_aux oracle board (p :: ps) i best w =
          showdown_aux oracle board ps (i + 1) best w := by
        simp [showdown_aux, ha]
      rw [this]
      exact ih (i + 1) best w hp hw1
    · cases best with
      | none =>
        have : showdown_aux oracle board (p :: ps) i none w =
            showdown_aux oracle board ps (i + 1)
              (some (oracle.score board p.hand)) [i] := by
          simp [showdown_aux, ha]
        rw [this]
        exact ih (i + 1) _ [i] (List.pairwise_singleton _ i) (by simp)
      | some b =>
        by_cases hlt : oracle.score board p.hand < b
        · have : showdown_aux oracle board (p :: ps) i (some b) w =
              showdown_aux oracle board ps (i + 1)
                (some (oracle.score board p.hand)) [i] := by
            simp [showdown_aux, ha, hlt]
          rw [this]
          exact ih (i + 1) _ [i] (List.pairwise_singleton _ i) (by simp)
        · by_cases heq : oracle.score board p.hand = b
          · have : showdown_aux oracle board (p :: ps) i (some b) w =
                showdown_aux oracle board ps (i + 1) (some b) (w ++ [i]) := by
              simp [showdown_aux, ha, hlt, heq]
            rw [this]
            have hpw : List.Pairwise (· < ·) (w ++ [i]) := by
              rw [List.pairwise_append]
              refine ⟨hp, List.pairwise_singleton _ i, ?_⟩
              intro a haw b hbi
              rw [List.mem_singleton.mp hbi]
              exact hw a haw
            have hwb : ∀ j ∈ w ++ [i], j < i + 1 := by
              intro j hj
              rcases List.mem_append.mp hj with hj | hj
              · exact (hw j hj).trans (by omega)
              · rw [List.mem_singleton.mp hj]; omega
            exact ih (i + 1) (some b) (w ++ [i]) hpw hwb
          · have : showdown_aux oracle board (p :: ps) i (some b) w =
                showdown_aux oracle board ps (i + 1) (some b) w := by
              simp [showdown_aux, ha, hlt, heq]
            rw [this]
            exact ih (i + 1) (some b) w hp hw1

theorem showdown_aux_ne_of_ne (oracle : Oracle) (board : List Card) :
    ∀ (ps : List Player) (i : Nat) (b : Int) (w : List Nat), w ≠ [] →
      showdown_aux oracle board ps i (some b) w ≠ [] := by
  intro ps
  induction ps with
  | nil => intro i b w hw; exact hw
  | cons p ps ih =>
    intro i b w hw
    by_cases ha : ¬p.is_active = true
    · have : showdown_aux oracle board (p :: ps) i (some b) w =
          showdown_aux oracle board ps (i + 1) (some b) w := by
        simp [showdown_aux, ha]
      rw [this]; exact ih (i + 1) b w hw
    · by_cases hlt : oracle.score board p.hand < b
      · have : showdown_aux oracle board (p :: ps) i (some b) w =
            showdown_aux oracle board ps (i + 1)
              (some (oracle.score board p.hand)) [i] := by
          simp [showdown_aux, ha, hlt]
        rw [this]; exact ih (i + 1) _ [i] (by simp)
      · by_cases heq : oracle.score board p.hand = b
        · have : showdown_aux oracle board (p :: ps) i (some b) w =
              showdown_aux oracle board ps (i + 1) (some b) (w ++ [i]) := by
            simp [showdown_aux, ha, hlt, heq]
          rw [this]; exact ih (i + 1) b (w ++ [i]) (by simp)
        · have : showdown_aux oracle board (p :: ps) i (some b) w =
              showdown_aux oracle board ps (i + 1) (some b) w := by
            simp [showdown_aux, ha, hlt, heq]
          rw [this]; exact ih (i + 1) b w hw

theorem showdown_aux_ne_of_active (oracle : Oracle) (board : List Card) :
    ∀ (ps : List Player) (i : Nat),
      (∃ p ∈ ps, p.is_active = true) →
      showdown_aux oracle board ps i none [] ≠ [] := by
  intro ps
  induction ps with
  | nil => intro i h; obtain ⟨p, hp, _⟩ := h; exact absurd hp (List.not_mem_nil p)
  | cons p ps ih =>
    intro i h
    by_cases ha : ¬p.is_active = true
    · have : showdown_aux oracle board (p :: ps) i none [] =
          showdown_aux oracle board ps (i + 1) none [] := by
        simp [showdown_aux, ha]
      rw [this]
      apply ih (i + 1)
      obtain ⟨q, hq, hqa⟩ := h
      rcases List.mem_cons.mp hq with hqp | hqs
      · exact absurd (hqp ▸ hqa) ha
      · exact ⟨q, hqs, hqa⟩
    · have : showdown_aux oracle board (p :: ps) i none [] =
          showdown_aux oracle board ps (i + 1)
            (some (oracle.score board p.hand)) [i] := by
        simp [showdown_aux, ha]
      rw [this]
      exact showdown_aux_ne_of_ne oracle board ps (i + 1) _ [i] (by simp)

/-- The winner set of a showdown is strictly increasing, its indices are
in range, and it is nonempty whenever some player is still active. -/
theorem showdown_facts (oracle : Oracle) (g : GameState) :
    List.Pairwise (· < ·) (showdown oracle g) ∧
    (∀ j ∈ showdown oracle g, j < g.players.length) ∧
    ((∃ p ∈ g.players, p.is_active = true) → showdown oracle g ≠ []) := by
  refine ⟨?_, ?_, ?_⟩
  · exact showdown_aux_pairwise oracle g.community_cards g.players 0 none []
      List.Pairwise.nil (by simp)
  · intro j hj
    have := showdown_aux_bound oracle g.community_cards g.players 0 none []
      (by simp) j hj
    simpa using this
  · exact showdown_aux_ne_of_active oracle g.community_cards g.players 0

/-- C4: for a non-empty showdown winner set, `distribute_pot` adds
exactly `pot // |winners|` to each winner's stack, leaves every
non-winner untouched (so the integer-division remainder is credited to
no one), zeroes the pot, and a sole winner gains exactly the pot. -/
theorem pot_distribution (oracle : Oracle) (g : GameState)
    (hw : showdown oracle g ≠ []) :
    (distribute_pot g (showdown oracle g)).pot = 0 ∧
    (∀ i ∈ showdown oracle g,
      (distribute_pot g (showdown oracle g)).players.get? i =
        (g.players.get? i).map (fun p =>
          { p with stack := p.stack +
              g.pot.fdiv (showdown oracle g).length })) ∧
    (∀ j, j ∉ showdown oracle g →
      (distribute_pot g (showdown oracle g)).players.get? j =
        g.players.get? j) ∧
    (∀ i, showdown oracle g = [i] →
      (distribute_pot g (showdown oracle g)).players.get? i =
        (g.players.get? i).map (fun p => { p with stack := p.stack + g.pot })) ∧
    sumStacks (distribute_pot g (showdown oracle g)).players =
      sumStacks g.players +
        g.pot.fdiv (showdown oracle g).length * (showdown oracle g).length := by
  have hd : distribute_pot g (showdown oracle g) =
      { g with
          players := credit_winners (g.pot.fdiv (showdown oracle g).length)
            g.players (showdown oracle g)
          pot := 0 } := by
    unfold distribute_pot
    rw [if_neg hw]
  have hfacts := showdown_facts oracle g
  refine ⟨by rw [hd], ?_, ?_, ?_, ?_⟩
  · intro i hi
    rw [hd]
    exact credit_get?_in _ (showdown oracle g) g.players i hfacts.1 hi
  · intro j hj
    rw [hd]
    exact credit_get?_notin _ (showdown oracle g) g.players j hj
  · intro i hsole
    rw [hd, hsole]
    have h1 := credit_get?_in (g.pot.fdiv ([i] : List Nat).length)
      [i] g.players i (List.pairwise_singleton _ i) (by simp)
    simpa [Int.fdiv_one] using h1
  · rw [hd]
    exact credit_sumStacks _ (showdown oracle g) g.players hfacts.2.1

/-- Witness for `pot_distribution`: a two-seat state where only seat 1
has a (strictly worse) longer hand under a length-scoring oracle, so
seat 0 is the sole winner and collects the whole pot. -/
theorem pot_distribution_witness :
    (distribute_pot
      { players := [{ name := "A", stack := 100, hand := [] },
                    { name := "B", stack := 50,
                      hand := [⟨Rank.ace, Suit.hearts⟩] }],
        pot := 30 }
      (showdown ⟨fun _ hand => hand.length, fun _ => 1/2⟩
        { players := [{ name := "A", stack := 100, hand := [] },
                      { name := "B", stack := 50,
                        hand := [⟨Rank.ace, Suit.hearts⟩] }],
          pot := 30 })).players.get? 0 =
    (({ players := [{ name := "A", stack := 100, hand := [] },
                    { name := "B", stack := 50,
                      hand := [⟨Rank.ace, Suit.hearts⟩] }],
        pot := 30 } : GameState).players.get? 0).map
      (fun p => { p with stack := p.stack + 30 }) := by
  have h := pot_distribution ⟨fun _ hand => hand.length, fun _ => 1/2⟩
    { players := [{ name := "A", stack := 100, hand := [] },
                  { name := "B", stack := 50,
                    hand := [⟨Rank.ace, Suit.hearts⟩] }],
      pot := 30 } (by decide)
  exact h.2.2.2.1 0 (by decide)

/-! ### Single-visit lemmas for the betting round (C1, C10) -/

theorem visit_conserve (oracle : Oracle) (rands : Nat → ℚ) (street : String)
    (community : List Card) (bb pot cb : Int) (i : Nat) (p : Player) :
    (visit_player oracle rands street community bb pot cb i p).1.stack +
      (visit_player oracle rands street community bb pot cb i p).2.1 =
      p.stack + pot := by
  unfold visit_player
  dsimp only
  split_ifs <;> dsimp only <;> ring

theorem visit_cb_mono (oracle : Oracle) (rands : Nat → ℚ) (street : String)
    (community : List Card) (bb pot cb : Int) (i : Nat) (p : Player) :
    cb ≤ (visit_player oracle rands street community bb pot cb i p).2.2.1 := by
  unfold visit_player
  dsimp only
  split_ifs <;> dsimp only <;> simp [le_max_left]

theorem visit_frame (oracle : Oracle) (rands : Nat → ℚ) (street : String)
    (community : List Card) (bb pot cb : Int) (i : Nat) (p : Player) :
    (visit_player oracle rands street community bb pot cb i p).1.last_action =
        p.last_action ∧
    (visit_player oracle rands street community bb pot cb i p).1.is_all_in =
        p.is_all_in ∧
    (visit_player oracle rands street community bb pot cb i p).1.name =
        p.name := by
  unfold visit_player
  dsimp only
  split_ifs <;> exact ⟨rfl, rfl, rfl⟩

theorem visit_keep (oracle : Oracle) (rands : Nat → ℚ) (street : String)
    (community : List Card) (bb pot cb : Int) (i : Nat) (p : Player)
    (hbb : 0 ≤ bb) (hact : p.is_active = true) (hall : p.is_all_in = false)
    (hcb : cb ≤ p.total_bet) :
    (visit_player oracle rands street community bb pot cb i p).1.is_active =
        true ∧
    (visit_player oracle rands street community bb pot cb i p).1.is_all_in =
        false ∧
    (visit_player oracle rands street community bb pot cb i p).2.2.1 ≤
      (visit_player oracle rands street community bb pot cb i p).1.total_bet := by
  unfold visit_player
  dsimp only
  -- the fold branches are impossible (folding needs to_call > 0 while
  -- cb ≤ total_bet); in the bet branches the new current_bet equals the
  -- bettor's new total_bet since the bet amount is nonnegative.
  split_ifs <;> dsimp only
  all_goals
    first
      | exact ⟨hact, hall, by omega⟩
      | (exfalso; omega)
      | (have hfd : (0:Int) ≤ pot.fdiv 2 := Int.fdiv_nonneg (by omega) (by omega)
         have hbet : (0:Int) ≤ min (pot.fdiv 2) p.stack := le_min hfd (by omega)
         exact ⟨hact, hall, max_le (by omega) (le_refl _)⟩)

theorem visit_raise (oracle : Oracle) (rands : Nat → ℚ) (street : String)
    (community : List Card) (bb pot cb : Int) (i : Nat) (p : Player)
    (hact : p.is_active = true) (hall : p.is_all_in = false) :
    (visit_player oracle rands street community bb pot cb i p).2.2.1 = cb ∨
    ((visit_player oracle rands street community bb pot cb i p).1.is_active =
        true ∧
     (visit_player oracle rands street community bb pot cb i p).1.is_all_in =
        false ∧
     (visit_player oracle rands street community bb pot cb i p).2.2.1 ≤
       (visit_player oracle rands street community bb pot cb i p).1.total_bet) := by
  unfold visit_player
  dsimp only
  split_ifs <;> dsimp only
  -- every non-bet branch keeps current_bet; in the bet branches, either
  -- the max is the old current_bet or it is the bettor's new total_bet.
  all_goals try exact Or.inl rfl
  all_goals simp only [max_def]
  all_goals split_ifs
  all_goals
    first
      | exact Or.inl rfl
      | exact Or.inr ⟨hact, hall, le_refl _⟩

/-! ### Betting-round loop lemmas (C1, C10) -/

theorem sumStacks_cons (p : Player) (l : List Player) :
    sumStacks (p :: l) = p.stack + sumStacks l := by
  simp [sumStacks]

theorem bra_conserve (oracle : Oracle) (rands : Nat → ℚ) (street : String)
    (community : List Card) (bb : Int) :
    ∀ (ps : List Player) (pot cb : Int) (hist : List PlayerAction) (i : Nat),
      sumStacks (betting_round_aux oracle rands street community bb
          ps pot cb hist i).1 +
        (betting_round_aux oracle rands street community bb
          ps pot cb hist i).2.1 =
      sumStacks ps + pot := by
  intro ps
  induction ps with
  | nil => intro pot cb hist i; simp [betting_round_aux]
  | cons p ps ih =>
    intro pot cb hist i
    by_cases hskip : ¬p.is_active = true ∨ p.is_all_in = true
    · simp only [betting_round_aux, if_pos hskip]
      rw [sumStacks_cons, sumStacks_cons]
      have := ih pot cb hist i
      omega
    · simp only [betting_round_aux, if_neg hskip]
      rw [sumStacks_cons, sumStacks_cons]
      have hv := visit_conserve oracle rands street community bb pot cb i p
      have hr := ih
        (visit_player oracle rands street community bb pot cb i p).2.1
        (visit_player oracle rands street community bb pot cb i p).2.2.1
        (hist ++ [(visit_player oracle rands street community bb pot cb i p).2.2.2.1])
        (visit_player oracle rands street community bb pot cb i p).2.2.2.2
      omega

theorem bra_cb_mono (oracle : Oracle) (rands : Nat → ℚ) (street : String)
    (community : List Card) (bb : Int) :
    ∀ (ps : List Player) (pot cb : Int) (hist : List PlayerAction) (i : Nat),
      cb ≤ (betting_round_aux oracle rands street community bb
        ps pot cb hist i).2.2.1 := by
  intro ps
  induction ps with
  | nil => intro pot cb hist i; simp [betting_round_aux]
  | cons p ps ih =>
    intro pot cb hist i
    by_cases hskip : ¬p.is_active = true ∨ p.is_all_in = true
    · simp only [betting_round_aux, if_pos hskip]
      exact ih pot cb hist i
    · simp only [betting_round_aux, if_neg hskip]
      have hv := visit_cb_mono oracle rands street community bb pot cb i p
      exact hv.trans (ih _ _ _ _)

theorem bra_last_action (oracle : Oracle) (rands : Nat → ℚ) (street : String)
    (community : List Card) (bb : Int) :
    ∀ (ps : List Player) (pot cb : Int) (hist : List PlayerAction) (i : Nat),
      (betting_round_aux oracle rands street community bb
          ps pot cb hist i).1.map Player.last_action =
        ps.map Player.last_action := by
  intro ps
  induction ps with
  | nil => intro pot cb hist i; simp [betting_round_aux]
  | cons p ps ih =>
    intro pot cb hist i
    by_cases hskip : ¬p.is_active = true ∨ p.is_all_in = true
    · simp only [betting_round_aux, if_pos hskip]
      rw [List.map_cons, List.map_cons, ih]
    · simp only [betting_round_aux, if_neg hskip]
      rw [List.map_cons, List.map_cons, ih,
        (visit_frame oracle rands street community bb pot cb i p).1]

theorem bra_raise (oracle : Oracle) (rands : Nat → ℚ) (street : String)
    (community : List Card) (bb : Int) :
    ∀ (ps : List Player) (pot cb : Int) (hist : List PlayerAction) (i : Nat),
      (betting_round_aux oracle rands street community bb
          ps pot cb hist i).2.2.1 = cb ∨
      GoodL (betting_round_aux oracle rands street community bb
          ps pot cb hist i).1
        (betting_round_aux oracle rands street community bb
          ps pot cb hist i).2.2.1 := by
  intro ps
  induction ps with
  | nil => intro pot cb hist i; exact Or.inl rfl
  | cons p ps ih =>
    intro pot cb hist i
    by_cases hskip : ¬p.is_active = true ∨ p.is_all_in = true
    · simp only [betting_round_aux, if_pos hskip]
      rcases ih pot cb hist i with h | ⟨q, hq, hqprops⟩
      · exact Or.inl h
      · exact Or.inr ⟨q, List.mem_cons_of_mem p hq, hqprops⟩
    · simp only [betting_round_aux, if_neg hskip]
      push_neg at hskip
      have hact : p.is_active = true := by
        rcases hskip with ⟨h1, _⟩
        exact Bool.of_not_eq_false (by simpa using h1)
      have hall : p.is_all_in = false := by
        rcases hskip with ⟨_, h2⟩
        exact Bool.of_not_eq_true h2
      have hvr := visit_raise oracle rands street community bb pot cb i p
        hact hall
      rcases ih (visit_player oracle rands street community bb pot cb i p).2.1
          (visit_player oracle rands street community bb pot cb i p).2.2.1
          (hist ++ [(visit_player oracle rands street community bb pot cb i p).2.2.2.1])
          (visit_player oracle rands street community bb pot cb i p).2.2.2.2
        with hr | ⟨q, hq, hqprops⟩
      · rcases hvr with hv | ⟨ha, hai, hle⟩
        · exact Or.inl (hr.trans hv)
        · exact Or.inr ⟨(visit_player oracle rands street community bb pot cb i p).1,
            List.mem_cons_self _ _, ha, hai, (by rw [hr]; exact hle)⟩
      · exact Or.inr ⟨q, List.mem_cons_of_mem _ hq, hqprops⟩

theorem bra_good (oracle : Oracle) (rands : Nat → ℚ) (street : String)
    (community : List Card) (bb : Int) (hbb : 0 ≤ bb) :
    ∀ (ps : List Player) (pot cb : Int) (hist : List PlayerAction) (i : Nat),
      GoodL ps cb →
      GoodL (betting_round_aux oracle rands street community bb
          ps pot cb hist i).1
        (betting_round_aux oracle rands street community bb
          ps pot cb hist i).2.2.1 := by
  intro ps
  induction ps with
  | nil =>
    intro pot cb hist i hgood
    obtain ⟨q, hq, _⟩ := hgood
    exact absurd hq (List.not_mem_nil q)
  | cons p ps ih =>
    intro pot cb hist i hgood
    by_cases hskip : ¬p.is_active = true ∨ p.is_all_in = true
    · simp only [betting_round_aux, if_pos hskip]
      obtain ⟨q, hq, hqa, hqi, hqb⟩ := hgood
      have hqs : q ∈ ps := by
        rcases List.mem_cons.mp hq with hqp | hqs
        · subst hqp
          rcases hskip with h1 | h2
          · exact absurd hqa h1
          · rw [hqi] at h2
            exact absurd h2 (by simp)
        · exact hqs
      obtain ⟨w, hw, hwp⟩ := ih pot cb hist i ⟨q, hqs, hqa, hqi, hqb⟩
      exact ⟨w, List.mem_cons_of_mem p hw, hwp⟩
    · simp only [betting_round_aux, if_neg hskip]
      push_neg at hskip
      have hact : p.is_active = true := by
        rcases hskip with ⟨h1, _⟩
        exact Bool.of_not_eq_false (by simpa using h1)
      have hall : p.is_all_in = false := by
        rcases hskip with ⟨_, h2⟩
        exact Bool.of_not_eq_true h2
      obtain ⟨q, hq, hqa, hqi, hqb⟩ := hgood
      rcases List.mem_cons.mp hq with hqp | hqs
      · -- the witness is the visited player: it stays a witness
        subst hqp
        have hk := visit_keep oracle rands street community bb pot cb i q
          hbb hqa hqi hqb
        rcases bra_raise oracle rands street community bb ps
            (visit_player oracle rands street community bb pot cb i q).2.1
            (visit_player oracle rands street community bb pot cb i q).2.2.1
            (hist ++ [(visit_player oracle rands street community bb pot cb i q).2.2.2.1])
            (visit_player oracle rands street community bb pot cb i q).2.2.2.2
          with hr | ⟨w, hw, hwp⟩
        · exact ⟨(visit_player oracle rands street community bb pot cb i q).1,
            List.mem_cons_self _ _, hk.1, hk.2.1, (by rw [hr]; exact hk.2.2)⟩
        · exact ⟨w, List.mem_cons_of_mem _ hw, hwp⟩
      · -- the witness sits later in the seating order
        rcases visit_raise oracle rands street community bb pot cb i p
            hact hall with hv | ⟨ha, hai, hle⟩
        · -- the visit kept the current bet: the witness is still good
          obtain ⟨w, hw, hwp⟩ := ih
            (visit_player oracle rands street community bb pot cb i p).2.1
            (visit_player oracle rands street community bb pot cb i p).2.2.1
            (hist ++ [(visit_player oracle rands street community bb pot cb i p).2.2.2.1])
            (visit_player oracle rands street community bb pot cb i p).2.2.2.2
            ⟨q, hqs, hqa, hqi, (by rw [hv]; exact hqb)⟩
          exact ⟨w, List.mem_cons_of_mem _ hw, hwp⟩
        · -- the visit raised: the visited player is the new witness
          rcases bra_raise oracle rands street community bb ps
              (visit_player oracle rands street community bb pot cb i p).2.1
              (visit_player oracle rands street community bb pot cb i p).2.2.1
              (hist ++ [(visit_player oracle rands street community bb pot cb i p).2.2.2.1])
              (visit_player oracle rands street community bb pot cb i p).2.2.2.2
            with hr | ⟨w, hw, hwp⟩
          · exact ⟨(visit_player oracle rands street community bb pot cb i p).1,
              List.mem_cons_self _ _, ha, hai, (by rw [hr]; exact hle)⟩
          · exact ⟨w, List.mem_cons_of_mem _ hw, hwp⟩

/-! ### Blind/ante posting, reset and dealing lemmas (C1, C10) -/

theorem sumStacks_map_of (f : Player → Player)
    (hf : ∀ q : Player, (f q).stack = q.stack) :
    ∀ ps : List Player, sumStacks (ps.map f) = sumStacks ps := by
  intro ps
  induction ps with
  | nil => rfl
  | cons p ps ih =>
    rw [List.map_cons, sumStacks_cons, sumStacks_cons, hf, ih]

theorem updateAt_sumStacks_of (f : Player → Player) (d : Int)
    (hf : ∀ q : Player, (f q).stack = q.stack + d) :
    ∀ (ps : List Player) (i : Nat), i < ps.length →
      sumStacks (updateAt ps i f) = sumStacks ps + d := by
  intro ps
  induction ps with
  | nil => intro i h; simp at h
  | cons p ps ih =>
    intro i h
    cases i with
    | zero =>
      rw [show updateAt (p :: ps) 0 f = f p :: ps from rfl,
        sumStacks_cons, sumStacks_cons, hf]
      ring
    | succ n =>
      rw [show updateAt (p :: ps) (n + 1) f = p :: updateAt ps n f from rfl,
        sumStacks_cons, sumStacks_cons, ih n (by simpa using h)]
      ring

theorem updateAt_map_last_of (f : Player → Player)
    (hf : ∀ q : Player, (f q).last_action = q.last_action) :
    ∀ (ps : List Player) (i : Nat),
      (updateAt ps i f).map Player.last_action = ps.map Player.last_action := by
  intro ps
  induction ps with
  | nil => intro i; rfl
  | cons p ps ih =>
    intro i
    cases i with
    | zero =>
      rw [show updateAt (p :: ps) 0 f = f p :: ps from rfl,
        List.map_cons, List.map_cons, hf]
    | succ n =>
      rw [show updateAt (p :: ps) (n + 1) f = p :: updateAt ps n f from rfl,
        List.map_cons, List.map_cons, ih n]

theorem post_antes_eq (ante : Int) :
    ∀ (ps : List Player) (pot : Int),
      post_antes ps ante pot =
        (ps.map (fun p => { p with stack := p.stack - ante }),
         pot + ante * ps.length) := by
  intro ps
  induction ps with
  | nil => intro pot; simp [post_antes]
  | cons p ps ih =>
    intro pot
    rw [show post_antes (p :: ps) ante pot =
        (({ p with stack := p.stack - ante }) :: (post_antes ps ante (pot + ante)).1,
         (post_antes ps ante (pot + ante)).2) from rfl, ih]
    simp only [Prod.mk.injEq, List.map_cons, List.length_cons]
    refine ⟨trivial, ?_⟩
    push_cast
    ring

theorem sumStacks_map_sub (a : Int) :
    ∀ ps : List Player,
      sumStacks (ps.map (fun p => { p with stack := p.stack - a })) =
        sumStacks ps - a * ps.length := by
  intro ps
  induction ps with
  | nil => simp [sumStacks]
  | cons p ps ih =>
    rw [List.map_cons, sumStacks_cons, sumStacks_cons, ih, List.length_cons]
    push_cast
    ring

theorem map_proj_map_of {α : Type} (f : Player → Player) (pr : Player → α)
    (hf : ∀ q : Player, pr (f q) = pr q) :
    ∀ ps : List Player, (ps.map f).map pr = ps.map pr := by
  intro ps
  induction ps with
  | nil => rfl
  | cons p ps ih => rw [List.map_cons, List.map_cons, List.map_cons, hf, ih]

theorem get?_proj_of_map_eq {α : Type} (pr : Player → α) (ps ps' : List Player)
    (h : ps'.map pr = ps.map pr) (k : Nat) :
    (ps'.get? k).map pr = (ps.get? k).map pr := by
  rw [← List.get?_map, ← List.get?_map, h]

theorem pa_conserve (g : GameState) :
    sumStacks (post_antes_state g).players + (post_antes_state g).pot =
      sumStacks g.players + g.pot := by
  unfold post_antes_state
  by_cases ha : g.ante > 0
  · rw [if_pos ha]
    dsimp only
    rw [post_antes_eq]
    dsimp only
    rw [sumStacks_map_sub]
    ring
  · rw [if_neg ha]

theorem pa_proj {α : Type} (pr : Player → α) (g : GameState)
    (hpr : ∀ q a, pr { q with stack := a } = pr q) :
    (post_antes_state g).players.map pr = g.players.map pr := by
  unfold post_antes_state
  by_cases ha : g.ante > 0
  · rw [if_pos ha]
    dsimp only
    rw [post_antes_eq]
    dsimp only
    exact map_proj_map_of _ pr (fun q => hpr q _) g.players
  · rw [if_neg ha]

theorem pa_length (g : GameState) :
    (post_antes_state g).players.length = g.players.length := by
  unfold post_antes_state
  by_cases ha : g.ante > 0
  · rw [if_pos ha]
    dsimp only
    rw [post_antes_eq]
    dsimp only
    exact List.length_map g.players _
  · rw [if_neg ha]

theorem pbo_conserve (g : GameState) :
    sumStacks (post_blinds_only g).players + (post_blinds_only g).pot =
      sumStacks g.players + g.pot := by
  unfold post_blinds_only
  by_cases hlen : 1 < g.players.length
  · rw [if_pos hlen]
    dsimp only
    rw [updateAt_sumStacks_of _
      (-(min g.big_blind (g.players.getD 1 default).stack))
      (fun q => by dsimp only; ring) _ 1
      (by rw [updateAt_length]; omega)]
    rw [updateAt_sumStacks_of _
      (-(min g.small_blind (g.players.getD 0 default).stack))
      (fun q => by dsimp only; ring) _ 0 (by omega)]
    ring
  · rw [if_neg hlen]

theorem pbo_map_last (g : GameState) :
    (post_blinds_only g).players.map Player.last_action =
      g.players.map Player.last_action := by
  unfold post_blinds_only
  by_cases hlen : 1 < g.players.length
  · rw [if_pos hlen]
    dsimp only
    refine (updateAt_map_last_of _ ?_ _ 1).trans
      (updateAt_map_last_of _ ?_ _ 0)
    · intro q; rfl
    · intro q; rfl
  · rw [if_neg hlen]

theorem pbo_good (g : GameState) (hlen : 1 < g.players.length)
    (h1 : ∀ q : Player, g.players.get? 1 = some q →
      q.is_active = true ∧ q.is_all_in = false ∧ 0 ≤ q.total_bet) :
    GoodL (post_blinds_only g).players (post_blinds_only g).current_bet := by
  unfold post_blinds_only
  rw [if_pos hlen]
  dsimp only
  have hq : ∃ q : Player, g.players.get? 1 = some q := by
    cases hg : g.players.get? 1 with
    | none =>
      exfalso
      have := List.get?_eq_none.mp hg
      omega
    | some q => exact ⟨q, rfl⟩
  obtain ⟨q, hq⟩ := hq
  obtain ⟨hqa, hqi, hqb⟩ := h1 q hq
  have hget : (updateAt
      (updateAt g.players 0 (fun p =>
        { p with stack := p.stack - min g.small_blind (g.players.getD 0 default).stack
                 total_bet := p.total_bet + min g.small_blind (g.players.getD 0 default).stack }))
      1 (fun p =>
        { p with stack := p.stack - min g.big_blind (g.players.getD 1 default).stack
                 total_bet := p.total_bet + min g.big_blind (g.players.getD 1 default).stack })).get? 1 =
      some { q with
        stack := q.stack - min g.big_blind (g.players.getD 1 default).stack
        total_bet := q.total_bet + min g.big_blind (g.players.getD 1 default).stack } := by
    rw [updateAt_get?_eq, updateAt_get?_ne _ _ _ _ (by omega), hq]
    rfl
  refine ⟨_, List.get?_mem hget, ?_, ?_, ?_⟩
  · exact hqa
  · exact hqi
  · dsimp only
    omega

theorem deal_to_players_nonHand :
    ∀ (ps : List Player) (d : Deck) (ps' : List Player) (d' : Deck),
      deal_to_players ps d = .ok (ps', d') →
      ps'.map nonHand = ps.map nonHand := by
  intro ps
  induction ps with
  | nil =>
    intro d ps' d' h
    simp only [deal_to_players] at h
    cases h
    rfl
  | cons p ps ih =>
    intro d ps' d' h
    simp only [deal_to_players] at h
    cases hdeal : d.dealE 2 with
    | error e =>
      rw [hdeal] at h
      simp only [bind, Except.bind] at h
      exact Except.noConfusion h
    | ok cd =>
      rw [hdeal] at h
      simp only [bind, Except.bind] at h
      cases hrest : deal_to_players ps cd.2 with
      | error e =>
        rw [hrest] at h
        simp only [Except.bind] at h
        exact Except.noConfusion h
      | ok pd =>
        rw [hrest] at h
        simp only [Except.bind, Except.ok.injEq, Prod.mk.injEq] at h
        obtain ⟨h1, _⟩ := h
        have hmap := ih cd.2 pd.1 pd.2 (by rw [hrest])
        rw [← h1, List.map_cons, hmap]
        rfl

theorem reset_hand_players (g : GameState) :
    (reset_hand g).players = g.players.map Player.clear_hand := rfl

theorem deal_hole_cards_parts (g : GameState) (shuffled : List Card)
    (g' : GameState) (h : deal_hole_cards g shuffled = .ok g') :
    g'.players.map nonHand = g.players.map nonHand ∧
    g'.pot = g.pot ∧ g'.current_bet = g.current_bet ∧
    g'.big_blind = g.big_blind ∧ g'.ante = g.ante ∧
    g'.small_blind = g.small_blind := by
  simp only [deal_hole_cards] at h
  cases hdtp : deal_to_players g.players (g.deck.shuffle shuffled) with
  | error e => rw [hdtp] at h; simp [Except.bind, bind] at h
  | ok pd =>
    rw [hdtp] at h
    simp only [Except.bind, bind, Except.ok.injEq] at h
    have hmap := deal_to_players_nonHand g.players _ pd.1 pd.2 (by rw [hdtp])
    rw [← h]
    exact ⟨hmap, rfl, rfl, rfl, rfl, rfl⟩

theorem deal_community_cards_parts (g : GameState) (n : Nat) (g' : GameState)
    (h : deal_community_cards g n = .ok g') :
    g'.players = g.players ∧ g'.pot = g.pot ∧
    g'.current_bet = g.current_bet ∧ g'.big_blind = g.big_blind := by
  simp only [deal_community_cards] at h
  cases hdeal : g.deck.burn_card.dealE n with
  | error e => rw [hdeal] at h; simp [Except.bind, bind] at h
  | ok cd =>
    rw [hdeal] at h
    simp only [Except.bind, bind, Except.ok.injEq] at h
    rw [← h]
    exact ⟨rfl, rfl, rfl, rfl⟩

theorem betting_round_parts (oracle : Oracle) (rands : Nat → ℚ)
    (g : GameState) (street : String) (i : Nat) :
    sumStacks (betting_round oracle rands g street i).1.players +
        (betting_round oracle rands g street i).1.pot =
      sumStacks g.players + g.pot ∧
    (betting_round oracle rands g street i).1.players.map Player.last_action =
      g.players.map Player.last_action ∧
    (betting_round oracle rands g street i).1.big_blind = g.big_blind ∧
    (betting_round oracle rands g street i).1.community_cards =
      g.community_cards := by
  refine ⟨?_, ?_, rfl, rfl⟩
  · exact bra_conserve oracle rands street g.community_cards g.big_blind
      g.players g.pot g.current_bet g.hand_history i
  · exact bra_last_action oracle rands street g.community_cards g.big_blind
      g.players g.pot g.current_bet g.hand_history i

theorem betting_round_good (oracle : Oracle) (rands : Nat → ℚ)
    (g : GameState) (street : String) (i : Nat) (hbb : 0 ≤ g.big_blind)
    (hgood : GoodL g.players g.current_bet) :
    GoodL (betting_round oracle rands g street i).1.players
      (betting_round oracle rands g street i).1.current_bet := by
  exact bra_good oracle rands street g.community_cards g.big_blind hbb
    g.players g.pot g.current_bet g.hand_history i hgood

theorem learn_from_hand_stack (p : Player) (won : Bool) (la : String) :
    (p.learn_from_hand won la).stack = p.stack := by
  unfold Player.learn_from_hand
  dsimp only
  split_ifs <;> rfl

theorem learning_step_sumStacks (winner_names : List String) :
    ∀ ps : List Player, sumStacks (learning_step winner_names ps) = sumStacks ps := by
  intro ps
  induction ps with
  | nil => rfl
  | cons p ps ih =>
    unfold learning_step at ih ⊢
    rw [List.map_cons, sumStacks_cons, sumStacks_cons, ih]
    by_cases hai : p.is_ai = true
    · rw [if_pos hai, learn_from_hand_stack]
    · rw [if_neg hai]

/-! ### Transport along nonHand-preserving steps (C1, C10) -/

theorem proj_of_nonHand_eq {α : Type} (pr : Player → α)
    (hpr : ∀ q : Player, pr (nonHand q) = pr q) (ps ps' : List Player)
    (h : ps'.map nonHand = ps.map nonHand) : ps'.map pr = ps.map pr := by
  rw [← map_proj_map_of nonHand pr hpr ps', h, map_proj_map_of nonHand pr hpr ps]

theorem sumStacks_of_nonHand_eq (ps ps' : List Player)
    (h : ps'.map nonHand = ps.map nonHand) : sumStacks ps' = sumStacks ps := by
  have := proj_of_nonHand_eq Player.stack (fun q => rfl) ps ps' h
  unfold sumStacks
  rw [this]

theorem length_of_nonHand_eq (ps ps' : List Player)
    (h : ps'.map nonHand = ps.map nonHand) : ps'.length = ps.length := by
  have := congrArg List.length h
  simpa using this

theorem map_last_clear :
    ∀ ps : List Player,
      (ps.map Player.clear_hand).map Player.last_action =
        List.replicate ps.length none := by
  intro ps
  induction ps with
  | nil => rfl
  | cons p ps ih =>
    rw [List.map_cons, List.map_cons, ih, List.length_cons]
    rfl

theorem map_flags_clear :
    ∀ ps : List Player,
      (ps.map Player.clear_hand).map flagsProj =
        List.replicate ps.length (true, false, (0:Int)) := by
  intro ps
  induction ps with
  | nil => rfl
  | cons p ps ih =>
    rw [List.map_cons, List.map_cons, ih, List.length_cons]
    rfl

theorem flags_at_of_replicate (ps : List Player) (n k : Nat)
    (h : ps.map flagsProj = List.replicate n (true, false, (0:Int)))
    (q : Player) (hq : ps.get? k = some q) :
    q.is_active = true ∧ q.is_all_in = false ∧ q.total_bet = 0 := by
  have h1 : (ps.map flagsProj).get? k = some (flagsProj q) := by
    rw [List.get?_map, hq]
    rfl
  rw [h] at h1
  have h2 : flagsProj q = (true, false, (0:Int)) :=
    List.eq_of_mem_replicate (List.get?_mem h1)
  unfold flagsProj at h2
  simp only [Prod.mk.injEq] at h2
  exact ⟨h2.1, h2.2.1, h2.2.2⟩

theorem pa_bb (g : GameState) :
    (post_antes_state g).big_blind = g.big_blind := by
  unfold post_antes_state
  by_cases ha : g.ante > 0
  · rw [if_pos ha]
  · rw [if_neg ha]

theorem pbo_bb (g : GameState) :
    (post_blinds_only g).big_blind = g.big_blind := by
  unfold post_blinds_only
  by_cases hlen : 1 < g.players.length
  · rw [if_pos hlen]
  · rw [if_neg hlen]

/-! ### The four betting streets end with conserved chips, untouched
last actions, and a surviving matched player (C1, C10) -/

theorem play_streets_facts (oracle : Oracle) (g : GameState)
    (shuffled : List Card) (rands : Nat → ℚ) (g1 : GameState) (i1 : Nat)
    (h : play_streets oracle g shuffled rands = .ok (g1, i1)) :
    sumStacks g1.players + g1.pot = sumStacks g.players ∧
    g1.players.map Player.last_action = List.replicate g.players.length none ∧
    (2 ≤ g.players.length → 0 ≤ g.big_blind →
      GoodL g1.players g1.current_bet) := by
  simp only [play_streets, bind, Except.bind] at h
  cases hdh : deal_hole_cards (reset_hand g) shuffled with
  | error e => rw [hdh] at h; exact Except.noConfusion h
  | ok gd =>
    rw [hdh] at h
    simp only [Except.bind] at h
    cases hc3 : deal_community_cards
        (betting_round oracle rands (post_blinds_and_antes gd) "preflop" 0).1
        3 with
    | error e => rw [hc3] at h; exact Except.noConfusion h
    | ok g3 =>
      rw [hc3] at h
      simp only [Except.bind] at h
      cases hc4 : deal_community_cards
          (betting_round oracle rands g3 "flop"
            (betting_round oracle rands (post_blinds_and_antes gd)
              "preflop" 0).2).1 1 with
      | error e => rw [hc4] at h; exact Except.noConfusion h
      | ok g4 =>
        rw [hc4] at h
        simp only [Except.bind] at h
        cases hc5 : deal_community_cards
            (betting_round oracle rands g4 "turn"
              (betting_round oracle rands g3 "flop"
                (betting_round oracle rands (post_blinds_and_antes gd)
                  "preflop" 0).2).2).1 1 with
        | error e => rw [hc5] at h; exact Except.noConfusion h
        | ok g5 =>
          rw [hc5] at h
          simp only [Except.bind] at h
          simp only [Except.ok.injEq, Prod.mk.injEq] at h
          obtain ⟨hg1, _⟩ := h
          -- abbreviations for the intermediate street states
          have hd := deal_hole_cards_parts (reset_hand g) shuffled gd hdh
          have hb1 := betting_round_parts oracle rands
            (post_blinds_and_antes gd) "preflop" 0
          have hd3 := deal_community_cards_parts _ 3 g3 hc3
          have hb2 := betting_round_parts oracle rands g3 "flop"
            (betting_round oracle rands (post_blinds_and_antes gd)
              "preflop" 0).2
          have hd4 := deal_community_cards_parts _ 1 g4 hc4
          have hb3 := betting_round_parts oracle rands g4 "turn"
            (betting_round oracle rands g3 "flop"
              (betting_round oracle rands (post_blinds_and_antes gd)
                "preflop" 0).2).2
          have hd5 := deal_community_cards_parts _ 1 g5 hc5
          have hb4 := betting_round_parts oracle rands g5 "river"
            (betting_round oracle rands g4 "turn"
              (betting_round oracle rands g3 "flop"
                (betting_round oracle rands (post_blinds_and_antes gd)
                  "preflop" 0).2).2).2
          -- chip conservation through every phase
          have hsum_reset : sumStacks (reset_hand g).players =
              sumStacks g.players := by
            rw [reset_hand_players]
            exact sumStacks_map_of Player.clear_hand (fun q => rfl) g.players
          have hpot_reset : (reset_hand g).pot = 0 := rfl
          have hsum_deal : sumStacks gd.players = sumStacks (reset_hand g).players :=
            sumStacks_of_nonHand_eq _ _ hd.1
          have hsum_blinds : sumStacks (post_blinds_and_antes gd).players +
              (post_blinds_and_antes gd).pot =
              sumStacks gd.players + gd.pot := by
            unfold post_blinds_and_antes
            rw [pbo_conserve, pa_conserve]
          have hgdpot : gd.pot = 0 := by rw [hd.2.1, hpot_reset]
          have hconsv : sumStacks g1.players + g1.pot = sumStacks g.players := by
            rw [← hg1]
            rw [hb4.1, hd5.1, hd5.2.1, hb3.1, hd4.1, hd4.2.1, hb2.1, hd3.1,
              hd3.2.1, hb1.1, hsum_blinds, hgdpot, hsum_deal, hsum_reset]
            ring
          -- last actions are never written
          have hlast : g1.players.map Player.last_action =
              List.replicate g.players.length none := by
            rw [← hg1]
            rw [hb4.2.1, hd5.1, hb3.2.1, hd4.1, hb2.2.1, hd3.1, hb1.2.1]
            have h1 : (post_blinds_and_antes gd).players.map Player.last_action =
                gd.players.map Player.last_action := by
              unfold post_blinds_and_antes
              rw [pbo_map_last]
              exact pa_proj Player.last_action gd (fun q a => rfl)
            rw [h1]
            rw [proj_of_nonHand_eq Player.last_action (fun q => rfl) _ _ hd.1]
            rw [reset_hand_players]
            exact map_last_clear g.players
          refine ⟨hconsv, hlast, ?_⟩
          -- the matched-player invariant
          intro hlen hbb
          have hbb_gd : gd.big_blind = g.big_blind := hd.2.2.2.1
          have hflags : (post_antes_state gd).players.map flagsProj =
              List.replicate g.players.length (true, false, (0:Int)) := by
            rw [pa_proj flagsProj gd (fun q a => rfl)]
            rw [proj_of_nonHand_eq flagsProj (fun q => rfl) _ _ hd.1]
            rw [reset_hand_players]
            exact map_flags_clear g.players
          have hlen_pa : (post_antes_state gd).players.length =
              g.players.length := by
            rw [pa_length]
            rw [length_of_nonHand_eq _ _ hd.1, reset_hand_players,
              List.length_map]
          have hgood0 : GoodL (post_blinds_and_antes gd).players
              (post_blinds_and_antes gd).current_bet := by
            unfold post_blinds_and_antes
            apply pbo_good
            · omega
            · intro q hq
              have := flags_at_of_replicate _ g.players.length 1 hflags q hq
              exact ⟨this.1, this.2.1, by omega⟩
          have hbbpa : (post_blinds_and_antes gd).big_blind = g.big_blind := by
            unfold post_blinds_and_antes
            rw [pbo_bb, pa_bb, hbb_gd]
          have hg_b1 : GoodL (betting_round oracle rands
              (post_blinds_and_antes gd) "preflop" 0).1.players
              (betting_round oracle rands (post_blinds_and_antes gd)
                "preflop" 0).1.current_bet :=
            betting_round_good _ _ _ _ _ (by rw [hbbpa]; exact hbb) hgood0
          have hg_d3 : GoodL g3.players g3.current_bet := by
            rw [hd3.1, hd3.2.2.1]
            exact hg_b1
          have hbb3 : g3.big_blind = g.big_blind := by
            rw [hd3.2.2.2, hb1.2.2.1, hbbpa]
          have hg_b2 : GoodL (betting_round oracle rands g3 "flop"
              (betting_round oracle rands (post_blinds_and_antes gd)
                "preflop" 0).2).1.players
              (betting_round oracle rands g3 "flop"
                (betting_round oracle rands (post_blinds_and_antes gd)
                  "preflop" 0).2).1.current_bet :=
            betting_round_good _ _ _ _ _ (by rw [hbb3]; exact hbb) hg_d3
          have hg_d4 : GoodL g4.players g4.current_bet := by
            rw [hd4.1, hd4.2.2.1]
            exact hg_b2
          have hbb4 : g4.big_blind = g.big_blind := by
            rw [hd4.2.2.2, hb2.2.2.1, hbb3]
          have hg_b3 : GoodL (betting_round oracle rands g4 "turn"
              (betting_round oracle rands g3 "flop"
                (betting_round oracle rands (post_blinds_and_antes gd)
                  "preflop" 0).2).2).1.players
              (betting_round oracle rands g4 "turn"
                (betting_round oracle rands g3 "flop"
                  (betting_round oracle rands (post_blinds_and_antes gd)
                    "preflop" 0).2).2).1.current_bet :=
            betting_round_good _ _ _ _ _ (by rw [hbb4]; exact hbb) hg_d4
          have hg_d5 : GoodL g5.players g5.current_bet := by
            rw [hd5.1, hd5.2.2.1]
            exact hg_b3
          have hbb5 : g5.big_blind = g.big_blind := by
            rw [hd5.2.2.2, hb3.2.2.1, hbb4]
          have hg_b4 := betting_round_good oracle rands g5 "river"
            (betting_round oracle rands g4 "turn"
              (betting_round oracle rands g3 "flop"
                (betting_round oracle rands (post_blinds_and_antes gd)
                  "preflop" 0).2).2).2 (by rw [hbb5]; exact hbb) hg_d5
          rw [← hg1]
          exact hg_b4

/-! ### C1: chip conservation over a completed hand -/

/-- C1: for every completed hand (any oracle, any randomness, any
shuffle), with at least two seats and a nonnegative big blind (the spec
requires positive blinds from the caller), the showdown has at least
one winner and the sum of all stacks after the hand plus the pot-split
remainder (`pot mod number_of_winners`, Python's floor-convention `%`)
equals the sum of all stacks before the hand: blinds/antes, betting
payments, and pot distribution neither create nor destroy chips. -/
theorem chip_conservation (oracle : Oracle) (g : GameState)
    (shuffled : List Card) (rands : Nat → ℚ) (g' : GameState)
    (res : HandResult) (hlen : 2 ≤ g.players.length)
    (hbb : 0 ≤ g.big_blind)
    (h : play_hand oracle g shuffled rands = .ok (g', res)) :
    0 < res.winners.length ∧
    sumStacks g'.players +
        res.pot.fmod (res.winners.length : Int) = sumStacks g.players := by
  simp only [play_hand, bind, Except.bind] at h
  cases hps : play_streets oracle g shuffled rands with
  | error e => rw [hps] at h; exact Except.noConfusion h
  | ok sr =>
    rw [hps] at h
    simp only [Except.ok.injEq, Prod.mk.injEq] at h
    obtain ⟨hg', hres⟩ := h
    have hfacts := play_streets_facts oracle g shuffled rands sr.1 sr.2
      (by rw [hps])
    have hne : showdown oracle sr.1 ≠ [] := by
      apply (showdown_facts oracle sr.1).2.2
      obtain ⟨q, hq, hqa, _, _⟩ := hfacts.2.2 hlen hbb
      exact ⟨q, hq, hqa⟩
    have hdist := pot_distribution oracle sr.1 hne
    have hwlen : res.winners.length = (showdown oracle sr.1).length := by
      rw [← hres]
      exact List.length_map _ _
    have hrespot : res.pot = sr.1.pot := by rw [← hres]
    constructor
    · rw [hwlen]
      exact List.length_pos.mpr hne
    · have hsum' : sumStacks g'.players =
          sumStacks sr.1.players +
            sr.1.pot.fdiv ((showdown oracle sr.1).length : Int) *
              ((showdown oracle sr.1).length : Int) := by
        rw [← hg']
        show sumStacks (learning_step _ (distribute_pot sr.1
          (showdown oracle sr.1)).players) = _
        rw [learning_step_sumStacks]
        exact hdist.2.2.2.2
      rw [hsum', hwlen, hrespot]
      have hid := Int.fmod_add_fdiv sr.1.pot
        ((showdown oracle sr.1).length : Int)
      have hcons := hfacts.1
      -- fmod + fdiv * len reassembles the pot
      have : sr.1.pot.fmod ((showdown oracle sr.1).length : Int) +
          ((showdown oracle sr.1).length : Int) *
            sr.1.pot.fdiv ((showdown oracle sr.1).length : Int) =
          sr.1.pot := hid
      have hmc : sr.1.pot.fdiv ((showdown oracle sr.1).length : Int) *
            ((showdown oracle sr.1).length : Int) =
          ((showdown oracle sr.1).length : Int) *
            sr.1.pot.fdiv ((showdown oracle sr.1).length : Int) :=
        mul_comm _ _
      omega

/-- Witness for `chip_conservation`: the two-seat fixture hand. -/
theorem chip_conservation_witness :
    0 < exHand.2.winners.length ∧
    sumStacks exHand.1.players +
        (exHand.2.pot).fmod (exHand.2.winners.length : Int) =
      sumStacks gTwoHumans.players :=
  chip_conservation oracleZero gTwoHumans fullDeck randsHalf
    exHand.1 exHand.2 (by decide) (by decide) rfl

/-! ### C10: the engine never writes `last_action` -/

/-- C10: `betting_round` and `post_blinds_and_antes` mutate stacks,
bets, activity flags, pot and current bet directly and only append
`PlayerAction` records to the hand history — they never assign
`player.last_action`; consequently after the four streets of a hand run
through the engine every player's `last_action` is still `None`, so the
end-of-hand learning string (`lastActionString`, the value play_hand
passes to `learn_from_hand`) is always "check". -/
theorem last_action_never_written :
    (∀ (oracle : Oracle) (rands : Nat → ℚ) (g : GameState) (street : String)
        (i : Nat),
      (betting_round oracle rands g street i).1.players.map Player.last_action =
        g.players.map Player.last_action) ∧
    (∀ g : GameState,
      (post_blinds_and_antes g).players.map Player.last_action =
        g.players.map Player.last_action) ∧
    (∀ (oracle : Oracle) (g : GameState) (shuffled : List Card)
        (rands : Nat → ℚ) (g1 : GameState) (i1 : Nat),
      play_streets oracle g shuffled rands = .ok (g1, i1) →
      ∀ p ∈ g1.players, p.last_action = none ∧ lastActionString p = "check") := by
  refine ⟨?_, ?_, ?_⟩
  · intro oracle rands g street i
    exact (betting_round_parts oracle rands g street i).2.1
  · intro g
    unfold post_blinds_and_antes
    rw [pbo_map_last]
    exact pa_proj Player.last_action g (fun q a => rfl)
  · intro oracle g shuffled rands g1 i1 h p hp
    have hmap := (play_streets_facts oracle g shuffled rands g1 i1 h).2.1
    have hmem : p.last_action ∈ g1.players.map Player.last_action :=
      List.mem_map_of_mem Player.last_action hp
    rw [hmap] at hmem
    have hnone : p.last_action = none := List.eq_of_mem_replicate hmem
    refine ⟨hnone, ?_⟩
    unfold lastActionString
    rw [hnone]

/-- Witness for `last_action_never_written` at the two-seat fixture. -/
theorem last_action_never_written_witness :
    (exStreets.1.players.getD 0 default).last_action = none ∧
    lastActionString (exStreets.1.players.getD 0 default) = "check" := by
  have hmem : exStreets.1.players.get? 0 =
      some (exStreets.1.players.getD 0 default) := rfl
  exact last_action_never_written.2.2 oracleZero gTwoHumans fullDeck randsHalf
    exStreets.1 exStreets.2 rfl _ (List.get?_mem hmem)

/-! ### C8: the Monte Carlo equity estimator -/

theorem erase_length_ge (l : List Card) (a : Card) :
    l.length - 1 ≤ (l.erase a).length := by
  by_cases hm : a ∈ l
  · rw [List.length_erase_of_mem hm]
  · rw [List.erase_of_not_mem hm]
    omega

/-- With valid descriptors and a full 52-card deck, one Monte Carlo
iteration always tallies a win, tie or loss (the `continue` guards never
fire). -/
theorem equity_iteration_ok (score : List Card → List Card → Int)
    (hand1 hand2 : String) (e : EquityEnv) (ph1 ph2 : ParsedHand)
    (h1 : parse_hand hand1 = .ok ph1) (h2 : parse_hand hand2 = .ok ph2)
    (hlen : e.deckOrder.length = 52) :
    ∃ o, equity_iteration score hand1 hand2 e = .ok o ∧ o ≠ .skipped := by
  unfold equity_iteration
  rw [h1, h2]
  simp only [bind, Except.bind]
  have hblen : (((((e.deckOrder.erase (choose_combo ph1 e.pick1).1).erase
      (choose_combo ph1 e.pick1).2).erase
      (choose_combo ph2 e.pick2).1).erase
      (choose_combo ph2 e.pick2).2).take 5).length = 5 := by
    have e1 := erase_length_ge e.deckOrder (choose_combo ph1 e.pick1).1
    have e2 := erase_length_ge (e.deckOrder.erase (choose_combo ph1 e.pick1).1)
      (choose_combo ph1 e.pick1).2
    have e3 := erase_length_ge ((e.deckOrder.erase (choose_combo ph1 e.pick1).1).erase
      (choose_combo ph1 e.pick1).2) (choose_combo ph2 e.pick2).1
    have e4 := erase_length_ge (((e.deckOrder.erase (choose_combo ph1 e.pick1).1).erase
      (choose_combo ph1 e.pick1).2).erase (choose_combo ph2 e.pick2).1)
      (choose_combo ph2 e.pick2).2
    rw [List.length_take]
    omega
  rw [if_pos hblen]
  split_ifs with hlt heq
  · exact ⟨.win, rfl, by decide⟩
  · exact ⟨.tie, rfl, by decide⟩
  · exact ⟨.loss, rfl, by decide⟩

theorem mapM_ok_of (f : Nat → Except String IterOutcome)
    (g : Nat → IterOutcome) :
    ∀ l : List Nat, (∀ i ∈ l, f i = .ok (g i)) →
      l.mapM f = .ok (l.map g) := by
  intro l
  induction l with
  | nil => intro _; rfl
  | cons a l ih =>
    intro hall
    rw [List.mapM_cons, hall a (List.mem_cons_self a l)]
    simp only [bind, Except.bind]
    rw [ih (fun i hi => hall i (List.mem_cons_of_mem a hi))]
    rfl

theorem filter_disjoint_length (p q : Nat → Bool)
    (hdisj : ∀ a, ¬(p a = true ∧ q a = true)) :
    ∀ l : List Nat, (l.filter p).length + (l.filter q).length ≤ l.length := by
  intro l
  induction l with
  | nil => simp
  | cons a l ih =>
    by_cases hp : p a = true
    · have hq : ¬ q a = true := fun hq => hdisj a ⟨hp, hq⟩
      rw [List.filter_cons_of_pos hp, List.filter_cons_of_neg hq]
      simpa using by omega
    · rw [List.filter_cons_of_neg hp]
      by_cases hq : q a = true
      · rw [List.filter_cons_of_pos hq]
        simpa using by omega
      · rw [List.filter_cons_of_neg hq]
        simpa using by omega

/-- C8: for valid hand descriptors, full 52-card per-iteration decks and
n ≥ 1 iterations, `calculate_equity` succeeds and returns exactly
`(wins + 0.5 × ties) / n`, where wins and ties count the iterations
among the n whose outcome is a win (hand1's score strictly lower) or a
tie (equal scores); no iteration is skipped, and the returned value lies
in [0, 1]. -/
theorem equity_formula (score : List Card → List Card → Int)
    (hand1 hand2 : String) (n : Nat) (env : Nat → EquityEnv)
    (ph1 ph2 : ParsedHand)
    (h1 : parse_hand hand1 = .ok ph1) (h2 : parse_hand hand2 = .ok ph2)
    (henv : ∀ i : Nat, (env i).deckOrder.length = 52) (hn : 1 ≤ n) :
    calculate_equity score hand1 hand2 n env =
      .ok (((((List.range n).filter (fun i =>
            (equity_iteration score hand1 hand2 (env i)).toOption =
              some IterOutcome.win)).length : ℚ) +
          (1/2) * (((List.range n).filter (fun i =>
            (equity_iteration score hand1 hand2 (env i)).toOption =
              some IterOutcome.tie)).length : ℚ)) /
        (n : ℚ)) ∧
    (∀ i : Nat, i < n →
      equity_iteration score hand1 hand2 (env i) ≠ .ok .skipped) ∧
    0 ≤ (((((List.range n).filter (fun i =>
          (equity_iteration score hand1 hand2 (env i)).toOption =
            some IterOutcome.win)).length : ℚ) +
        (1/2) * (((List.range n).filter (fun i =>
          (equity_iteration score hand1 hand2 (env i)).toOption =
            some IterOutcome.tie)).length : ℚ)) /
      (n : ℚ)) ∧
    (((((List.range n).filter (fun i =>
          (equity_iteration score hand1 hand2 (env i)).toOption =
            some IterOutcome.win)).length : ℚ) +
        (1/2) * (((List.range n).filter (fun i =>
          (equity_iteration score hand1 hand2 (env i)).toOption =
            some IterOutcome.tie)).length : ℚ)) /
      (n : ℚ)) ≤ 1 := by
  have hiter : ∀ i : Nat, ∃ o, equity_iteration score hand1 hand2 (env i) =
      .ok o ∧ o ≠ .skipped := fun i =>
    equity_iteration_ok score hand1 hand2 (env i) ph1 ph2 h1 h2 (henv i)
  have hg : ∀ i ∈ List.range n,
      equity_iteration score hand1 hand2 (env i) =
        .ok ((fun j => ((equity_iteration score hand1 hand2 (env j)).toOption).getD
          IterOutcome.skipped) i) := by
    intro i _
    show equity_iteration score hand1 hand2 (env i) =
      .ok (((equity_iteration score hand1 hand2 (env i)).toOption).getD
        IterOutcome.skipped)
    obtain ⟨o, ho, _⟩ := hiter i
    rw [ho]
    rfl
  have hmap := mapM_ok_of (fun i => equity_iteration score hand1 hand2 (env i))
    (fun j => ((equity_iteration score hand1 hand2 (env j)).toOption).getD
      IterOutcome.skipped) (List.range n) hg
  have hskip : ∀ i : Nat, i < n →
      equity_iteration score hand1 hand2 (env i) ≠ .ok .skipped := by
    intro i _ hcon
    obtain ⟨o, ho, hne⟩ := hiter i
    rw [ho] at hcon
    exact hne (Except.ok.inj hcon)
  have hfw : (((List.range n).map (fun j =>
        ((equity_iteration score hand1 hand2 (env j)).toOption).getD
          IterOutcome.skipped)).filter (fun o => o = IterOutcome.win)).length =
      ((List.range n).filter (fun i =>
        (equity_iteration score hand1 hand2 (env i)).toOption =
          some IterOutcome.win)).length := by
    rw [List.filter_map, List.length_map]
    congr 1
    apply List.filter_congr
    intro i _
    obtain ⟨o, ho, _⟩ := hiter i
    simp only [Function.comp_apply, ho, Except.toOption]
    cases o <;> simp
  have hft : (((List.range n).map (fun j =>
        ((equity_iteration score hand1 hand2 (env j)).toOption).getD
          IterOutcome.skipped)).filter (fun o => o = IterOutcome.tie)).length =
      ((List.range n).filter (fun i =>
        (equity_iteration score hand1 hand2 (env i)).toOption =
          some IterOutcome.tie)).length := by
    rw [List.filter_map, List.length_map]
    congr 1
    apply List.filter_congr
    intro i _
    obtain ⟨o, ho, _⟩ := hiter i
    simp only [Function.comp_apply, ho, Except.toOption]
    cases o <;> simp
  have hcount : ((List.range n).filter (fun i =>
        (equity_iteration score hand1 hand2 (env i)).toOption =
          some IterOutcome.win)).length +
      ((List.range n).filter (fun i =>
        (equity_iteration score hand1 hand2 (env i)).toOption =
          some IterOutcome.tie)).length ≤ n := by
    have hdl := filter_disjoint_length
      (fun i => decide ((equity_iteration score hand1 hand2 (env i)).toOption =
        some IterOutcome.win))
      (fun i => decide ((equity_iteration score hand1 hand2 (env i)).toOption =
        some IterOutcome.tie))
      (by
        rintro a ⟨ha, hb⟩
        have ha' := of_decide_eq_true ha
        have hb' := of_decide_eq_true hb
        rw [ha'] at hb'
        exact IterOutcome.noConfusion (Option.some.inj hb'))
      (List.range n)
    simpa using hdl
  have hq0 : (0:ℚ) < (n:ℚ) := by
    have h01 : (0:ℚ) < ((1:Nat):ℚ) := by norm_num
    calc (0:ℚ) < ((1:Nat):ℚ) := h01
      _ ≤ (n:ℚ) := by exact_mod_cast hn
  refine ⟨?_, hskip, ?_, ?_⟩
  · unfold calculate_equity
    simp only [bind, Except.bind]
    rw [hmap]
    simp only [Except.bind]
    rw [hfw, hft]
  · positivity
  · rw [div_le_one hq0]
    have hc : (((List.range n).filter (fun i =>
          (equity_iteration score hand1 hand2 (env i)).toOption =
            some IterOutcome.win)).length : ℚ) +
        (((List.range n).filter (fun i =>
          (equity_iteration score hand1 hand2 (env i)).toOption =
            some IterOutcome.tie)).length : ℚ) ≤ (n : ℚ) := by
      exact_mod_cast hcount
    have ht0 : (0:ℚ) ≤ (((List.range n).filter (fun i =>
        (equity_iteration score hand1 hand2 (env i)).toOption =
          some IterOutcome.tie)).length : ℚ) :=
      Nat.cast_nonneg _
    linarith

/-- Witness for `equity_formula`: with exact descriptors "AhKh" vs
"QdQc", the canonical full deck, and a constant oracle, no iteration is
ever skipped. -/
theorem equity_formula_witness :
    equity_iteration (fun _ _ => 0) "AhKh" "QdQc" (envCanonical 0) ≠
      Except.ok IterOutcome.skipped :=
  (equity_formula (fun _ _ => 0) "AhKh" "QdQc" 2 envCanonical
    (.exact ⟨.ace, .hearts⟩ ⟨.king, .hearts⟩)
    (.exact ⟨.queen, .diamonds⟩ ⟨.queen, .clubs⟩)
    rfl rfl (fun _ => fullDeck_length) (by decide)).2.1 0 (by decide)

end PokerSim
